import Mathlib

/-!
Verification of the mars-horizon-mission-solver repository.

Part 1 models the `parallelsearch` package as a small-step transition system:
each worker executing `ParallelSearch.search` is broken into its observable
micro-steps (increment of the per-depth processed counter and dispatch on the
goal test, pushing into the bounded result channel, emitting children one at a
time, decrementing the per-depth barrier), and the caller running
`WaitForFound` and the depth-completion announcer are further processes.

Part 2 models the `Sequence`/`Resources` puzzle logic as pure functions, with
an additional heap-passing version of `attemptAction`/`Search` used to state
the frame properties of the pointer-mutating Go code.
-/

namespace PS

/-- The three operations of the `Searchable` interface: `Search` (as the list
of children passed to `onNext`, in emission order), `IsFound` and `Score`. -/
structure SearchSpec (σ : Type) where
  children : σ → List σ
  isFound : σ → Bool
  score : σ → Int

/-- Micro-state of a worker executing `ParallelSearch.search` after the
initial atomic increment of `searched[depth]` and the goal test:
`pushing n` is blocked on `self.found <- searchable`, `emitting n cs` still
has the children `cs` of `n` to hand to `asyncSearch`, `finishing` is about
to run `self.waiters[depth].Done()`. -/
inductive Phase (σ : Type) where
  | pushing (n : σ)
  | emitting (n : σ) (cs : List σ)
  | finishing

/-- An in-flight worker of the pool, with the depth it was submitted at. -/
structure Worker (σ : Type) where
  depth : Nat
  phase : Phase σ

/-- Global state of one `ParallelSearch` run: the pool's pending task queue,
the in-flight workers, the buffered `found` channel (`results`), the entries
already received by `WaitForFound` (`delivered`), the `searched` counters and
`waiters` barriers (per depth `0..depthLimit`), the announcer position, the
channel-closed flag, whether the caller's drain loop has exited, a ghost log
of all processed (counted) nodes, and the log of depth-completion reports. -/
structure Config (σ : Type) where
  queue : List (σ × Nat)
  running : List (Worker σ)
  results : List σ
  delivered : List σ
  searched : List Nat
  barrier : List Nat
  announceDepth : Nat
  closed : Bool
  callerDone : Bool
  log : List (σ × Nat)
  reported : List (Nat × Nat)

variable {σ : Type}

/-- Increment slot `d` of a per-depth counter array. -/
def bumpL (l : List Nat) (d : Nat) : List Nat := l.set d (l.getD d 0 + 1)

/-- Decrement slot `d` of a per-depth counter array. -/
def dropL (l : List Nat) (d : Nat) : List Nat := l.set d (l.getD d 0 - 1)

/-- The branch of `ParallelSearch.search` after the counter increment:
a found node is pushed, otherwise the node is expanded only when
`depth < depthLimit`, otherwise the branch is pruned. -/
def dispatch (sp : SearchSpec σ) (depthLimit : Nat) (n : σ) (d : Nat) : Phase σ :=
  if sp.isFound n then Phase.pushing n
  else if d < depthLimit then Phase.emitting n (sp.children n)
  else Phase.finishing

/-- State immediately after `New` + `Start(roots...)`: every root is submitted
at depth `0` (each submission having incremented `waiters[0]`), and the
announcer goroutine is at depth `0`. -/
def init (depthLimit : Nat) (roots : List σ) : Config σ :=
  { queue := roots.map (fun n => (n, 0))
    running := []
    results := []
    delivered := []
    searched := List.replicate (depthLimit + 1) 0
    barrier := (List.replicate (depthLimit + 1) 0).set 0 roots.length
    announceDepth := 0
    closed := false
    callerDone := false
    log := []
    reported := [] }

/-- One interleaved step of the system: a worker starting a queued task
(atomically counting it and taking the `IsFound`/depth branch), a blocked
producer completing its channel send, a child being handed to `asyncSearch`
(incrementing the depth `d+1` barrier before being queued), a worker
finishing (decrementing its depth's barrier), the announcer passing a cleared
depth, the channel being closed, and the `WaitForFound` loop receiving an
entry or exiting on a closed, drained channel. -/
inductive Step (sp : SearchSpec σ) (depthLimit searchLimit poolSize : Nat) :
    Config σ → Config σ → Prop where
  | start (c : Config σ) (q1 q2 : List (σ × Nat)) (n : σ) (d : Nat)
      (hq : c.queue = q1 ++ (n, d) :: q2)
      (hpool : c.running.length < poolSize) :
      Step sp depthLimit searchLimit poolSize c
        { c with queue := q1 ++ q2
                 running := c.running ++ [⟨d, dispatch sp depthLimit n d⟩]
                 searched := bumpL c.searched d
                 log := c.log ++ [(n, d)] }
  | push (c : Config σ) (r1 r2 : List (Worker σ)) (d : Nat) (n : σ)
      (hr : c.running = r1 ++ ⟨d, Phase.pushing n⟩ :: r2)
      (hcap : c.results.length < searchLimit) :
      Step sp depthLimit searchLimit poolSize c
        { c with running := r1 ++ ⟨d, Phase.finishing⟩ :: r2
                 results := c.results ++ [n] }
  | emit (c : Config σ) (r1 r2 : List (Worker σ)) (d : Nat) (n x : σ) (cs : List σ)
      (hr : c.running = r1 ++ ⟨d, Phase.emitting n (x :: cs)⟩ :: r2) :
      Step sp depthLimit searchLimit poolSize c
        { c with running := r1 ++ ⟨d, Phase.emitting n cs⟩ :: r2
                 queue := c.queue ++ [(x, d + 1)]
                 barrier := bumpL c.barrier (d + 1) }
  | emitDone (c : Config σ) (r1 r2 : List (Worker σ)) (d : Nat) (n : σ)
      (hr : c.running = r1 ++ ⟨d, Phase.emitting n []⟩ :: r2) :
      Step sp depthLimit searchLimit poolSize c
        { c with running := r1 ++ ⟨d, Phase.finishing⟩ :: r2 }
  | finish (c : Config σ) (r1 r2 : List (Worker σ)) (d : Nat)
      (hr : c.running = r1 ++ ⟨d, Phase.finishing⟩ :: r2) :
      Step sp depthLimit searchLimit poolSize c
        { c with running := r1 ++ r2
                 barrier := dropL c.barrier d }
  | announce (c : Config σ)
      (had : c.announceDepth ≤ depthLimit)
      (hb : c.barrier.getD c.announceDepth 0 = 0) :
      Step sp depthLimit searchLimit poolSize c
        { c with announceDepth := c.announceDepth + 1
                 reported :=
                   if 0 < c.searched.getD c.announceDepth 0 then
                     c.reported ++ [(c.announceDepth, c.searched.getD c.announceDepth 0)]
                   else c.reported }
  | close (c : Config σ)
      (had : c.announceDepth = depthLimit + 1) (hcl : c.closed = false) :
      Step sp depthLimit searchLimit poolSize c
        { c with closed := true }
  | recv (c : Config σ) (x : σ) (rest : List σ)
      (hres : c.results = x :: rest) (hdone : c.callerDone = false) :
      Step sp depthLimit searchLimit poolSize c
        { c with results := rest
                 delivered := c.delivered ++ [x]
                 callerDone := decide (searchLimit ≤ c.delivered.length + 1) }
  | recvClose (c : Config σ)
      (hres : c.results = []) (hcl : c.closed = true) (hdone : c.callerDone = false) :
      Step sp depthLimit searchLimit poolSize c
        { c with callerDone := true }

/-- A state reachable in some run of the engine started on `roots`. -/
def Reachable (sp : SearchSpec σ) (depthLimit searchLimit poolSize : Nat)
    (roots : List σ) (c : Config σ) : Prop :=
  Relation.ReflTransGen (Step sp depthLimit searchLimit poolSize) (init depthLimit roots) c

/-- Number of queued tasks at depth `d` (also used to count ghost-log entries). -/
def countQ (d : Nat) (q : List (σ × Nat)) : Nat := q.countP (fun t => t.2 == d)

/-- Number of in-flight workers at depth `d`. -/
def countR (d : Nat) (r : List (Worker σ)) : Nat := r.countP (fun w => w.depth == d)

/-- Whether a worker phase is a blocked channel send. -/
def isPushing : Phase σ → Bool
  | Phase.pushing _ => true
  | _ => false

/-- Number of in-flight workers at depth `d` that are blocked pushing a result. -/
def countPushing (d : Nat) (r : List (Worker σ)) : Nat :=
  r.countP (fun w => w.depth == d && isPushing w.phase)

/-- Number of goal nodes the engine can ever see in the subtree rooted at `n`
with remaining depth budget `b`: a found node counts once and is never
expanded, and a node with exhausted budget is pruned. -/
def goalsIn (sp : SearchSpec σ) : Nat → σ → Nat
  | 0, n => if sp.isFound n then 1 else 0
  | b + 1, n => if sp.isFound n then 1 else ((sp.children n).map (goalsIn sp b)).sum

/-- Number of goal nodes at depth `≤ depthLimit` reachable from the roots. -/
def totalGoals (sp : SearchSpec σ) (depthLimit : Nat) (roots : List σ) : Nat :=
  (roots.map (goalsIn sp depthLimit)).sum

/-- Goal nodes a worker can still contribute to the channel. -/
def wPot (sp : SearchSpec σ) (depthLimit : Nat) (w : Worker σ) : Nat :=
  match w.phase with
  | Phase.pushing _ => 1
  | Phase.emitting _ cs => (cs.map (goalsIn sp (depthLimit - (w.depth + 1)))).sum
  | Phase.finishing => 0

/-- Goal nodes the queued tasks can still contribute to the channel. -/
def qPot (sp : SearchSpec σ) (depthLimit : Nat) (q : List (σ × Nat)) : Nat :=
  (q.map (fun t => goalsIn sp (depthLimit - t.2) t.1)).sum

/-- Goal nodes pushed so far plus those the remaining work can still push. -/
def potential (sp : SearchSpec σ) (depthLimit : Nat) (c : Config σ) : Nat :=
  qPot sp depthLimit c.queue + (c.running.map (wPot sp depthLimit)).sum
    + c.results.length + c.delivered.length

/-- The `sort.Slice(found, func(i, j) { return found[i].Score() > found[j].Score() })`
step of `WaitForFound`: a permutation of the input sorted so that every earlier
entry's score is at least every later entry's. -/
def sortDesc (score : σ → Int) (l : List σ) : List σ :=
  List.insertionSort (fun a b => score b ≤ score a) l

/-- The value `WaitForFound` returns once its drain loop has exited: the
drained entries sorted descending by score. -/
def waitForFoundResult (sp : SearchSpec σ) (c : Config σ) : List σ :=
  sortDesc sp.score c.delivered

/-- Invariant of reachable engine states that does not mention `searchLimit`:
counter-array lengths, the barrier accounting equation, the phase disciplines,
depth bounds, the processed-counter/ghost-log correspondence, conservation of
the goal potential, quiescence below the announcer, and the close/report
protocol. -/
structure Inv (sp : SearchSpec σ) (depthLimit : Nat) (roots : List σ)
    (c : Config σ) : Prop where
  searched_len : c.searched.length = depthLimit + 1
  barrier_len : c.barrier.length = depthLimit + 1
  barrier_eq : ∀ d, c.barrier.getD d 0 = countQ d c.queue + countR d c.running
  pushing_found : ∀ w ∈ c.running, ∀ n, w.phase = Phase.pushing n → sp.isFound n = true
  emitting_ok : ∀ w ∈ c.running, ∀ n cs, w.phase = Phase.emitting n cs →
    sp.isFound n = false ∧ w.depth < depthLimit ∧ ∃ pre, sp.children n = pre ++ cs
  results_found : ∀ x ∈ c.results, sp.isFound x = true
  delivered_found : ∀ x ∈ c.delivered, sp.isFound x = true
  queue_depth : ∀ t ∈ c.queue, t.2 ≤ depthLimit
  running_depth : ∀ w ∈ c.running, w.depth ≤ depthLimit
  log_depth : ∀ t ∈ c.log, t.2 ≤ depthLimit
  searched_eq : ∀ d, c.searched.getD d 0 = countQ d c.log
  potential_eq : potential sp depthLimit c = totalGoals sp depthLimit roots
  quiescent : ∀ k, k < c.announceDepth → c.barrier.getD k 0 = 0
  closed_ad : c.closed = true → c.announceDepth = depthLimit + 1
  reported_ok : ∀ p ∈ c.reported,
    0 < p.2 ∧ p.2 = c.searched.getD p.1 0 ∧ p.1 < c.announceDepth

/-- Invariant of the caller's drain loop: the received entries never exceed
`searchLimit`, and the loop only exits with its quota met or on a closed
channel. -/
structure DInv (searchLimit : Nat) (c : Config σ) : Prop where
  delivered_le : c.delivered.length ≤ searchLimit
  not_done_lt : c.callerDone = false → c.delivered.length < searchLimit
  done_reason : c.callerDone = true →
    searchLimit ≤ c.delivered.length ∨ c.closed = true

/-- When `depthLimit = 0`, every queued task and logged node is one of the
roots at depth `0`, and every worker runs at depth `0`. -/
structure Inv0 (roots : List σ) (c : Config σ) : Prop where
  queue_root : ∀ t ∈ c.queue, t.1 ∈ roots ∧ t.2 = 0
  running_zero : ∀ w ∈ c.running, w.depth = 0
  log_root : ∀ t ∈ c.log, t.1 ∈ roots ∧ t.2 = 0

/-- The stuck shape of the §5 hazard: the caller is done, the channel buffer
is full, some worker at depth `d` is blocked pushing, and the announcer has
not passed depth `d`. -/
def StuckAt (sl d : Nat) (c : Config σ) : Prop :=
  c.callerDone = true ∧ c.results.length = sl ∧ 1 ≤ countPushing d c.running ∧
    c.announceDepth ≤ d

end PS

namespace MH

/-- Modulus of Go's `uint32` (`Sequence.Size`, `Scenario.Turns`,
`Scenario.ActionsPerTurn`). -/
def U32 : Nat := 4294967296

/-- A state or goal in the Mars Horizons mini-game (all fields Go `int`,
modelled as unbounded integers). -/
structure Resources where
  Comm : Int
  Data : Int
  Nav : Int
  Power : Int
  Drift : Int
  Heat : Int
  Thrust : Int
  Crew : Int
  Radiation : Int
deriving DecidableEq

instance : Inhabited Resources := ⟨⟨0, 0, 0, 0, 0, 0, 0, 0, 0⟩⟩

/-- Pointwise sum of resources (`Resources.add`, value-level). -/
def Resources.add (self other : Resources) : Resources :=
  { Comm := self.Comm + other.Comm
    Data := self.Data + other.Data
    Nav := self.Nav + other.Nav
    Power := self.Power + other.Power
    Drift := self.Drift + other.Drift
    Heat := self.Heat + other.Heat
    Thrust := self.Thrust + other.Thrust
    Crew := self.Crew + other.Crew
    Radiation := self.Radiation + other.Radiation }

/-- Pointwise difference of resources (`Resources.subtract`, value-level). -/
def Resources.subtract (self other : Resources) : Resources :=
  { Comm := self.Comm - other.Comm
    Data := self.Data - other.Data
    Nav := self.Nav - other.Nav
    Power := self.Power - other.Power
    Drift := self.Drift - other.Drift
    Heat := self.Heat - other.Heat
    Thrust := self.Thrust - other.Thrust
    Crew := self.Crew - other.Crew
    Radiation := self.Radiation - other.Radiation }

/-- Model of `Resources.endsWithin`: strictly between the bounds in every field. -/
def Resources.endsWithin (self lowerBound upperBound : Resources) : Bool :=
  decide (lowerBound.Comm < self.Comm ∧ self.Comm < upperBound.Comm ∧
    lowerBound.Data < self.Data ∧ self.Data < upperBound.Data ∧
    lowerBound.Nav < self.Nav ∧ self.Nav < upperBound.Nav ∧
    lowerBound.Power < self.Power ∧ self.Power < upperBound.Power ∧
    lowerBound.Drift < self.Drift ∧ self.Drift < upperBound.Drift ∧
    lowerBound.Heat < self.Heat ∧ self.Heat < upperBound.Heat ∧
    lowerBound.Thrust < self.Thrust ∧ self.Thrust < upperBound.Thrust ∧
    lowerBound.Crew < self.Crew ∧ self.Crew < upperBound.Crew ∧
    lowerBound.Radiation < self.Radiation ∧ self.Radiation < upperBound.Radiation)

/-- Model of `Resources.risk`, ignoring Drift, Heat and Crew. -/
def Resources.risk (self goal : Resources) : Int :=
  let r0 := 10 * self.Power - 100 * self.Radiation
  let r1 := if 0 < goal.Comm then r0 + (self.Comm - goal.Comm) else r0
  let r2 := if 0 < goal.Data then r1 + (self.Data - goal.Data) else r1
  let r3 := if 0 < goal.Nav then r2 + (self.Nav - goal.Nav) else r2
  if 0 < goal.Thrust then r3 + (self.Thrust - goal.Thrust) else r3

/-- An action with a required input and produced output. -/
structure Command where
  Name : String
  Input : Resources
  Output : Resources
deriving DecidableEq

/-- A Mars Horizons mini-game scenario. -/
structure Scenario where
  Turns : Nat
  ActionsPerTurn : Nat
  Start : Resources
  Goal : Resources
  Commands : List Command
  TurnCost : Resources
  TurnMustEndAbove : Resources
  TurnMustEndBelow : Resources
deriving DecidableEq

/-- Model of `Scenario.totalActions`: `Turns * ActionsPerTurn` in `uint32` arithmetic. -/
def Scenario.totalActions (self : Scenario) : Nat :=
  (self.Turns * self.ActionsPerTurn) % U32

/-- A list of commands run so far together with the resources arrived at. -/
inductive Sequence where
  | mk (scenario : Scenario) (resources : Resources) (command : Option Command)
      (prev : Option Sequence) (size : Nat)

def Sequence.scenario : Sequence → Scenario
  | .mk s _ _ _ _ => s

def Sequence.resources : Sequence → Resources
  | .mk _ r _ _ _ => r

def Sequence.command : Sequence → Option Command
  | .mk _ _ c _ _ => c

def Sequence.prev : Sequence → Option Sequence
  | .mk _ _ _ p _ => p

def Sequence.size : Sequence → Nat
  | .mk _ _ _ _ n => n

/-- Model of `Sequence.isNewTurn`. -/
def Sequence.isNewTurn (self : Sequence) : Bool :=
  self.size % self.scenario.ActionsPerTurn == 1

/-- Model of `Sequence.isTurnEnd`. -/
def Sequence.isTurnEnd (self : Sequence) : Bool :=
  self.size % self.scenario.ActionsPerTurn == 0

/-- Model of `Sequence.hasMoreActionsAvailable`. -/
def Sequence.hasMoreActionsAvailable (self : Sequence) : Bool :=
  decide (self.size < self.scenario.totalActions)

/-- Body of `Sequence.isInvalid` on the scenario, resource state and size of a
sequence: a turn-end state must end strictly within the bounds, and (ignoring
Drift, Thrust and Radiation) no listed resource may be negative. -/
def invalidAt (scn : Scenario) (r : Resources) (size : Nat) : Bool :=
  if size % scn.ActionsPerTurn == 0
      && !(r.endsWithin scn.TurnMustEndAbove scn.TurnMustEndBelow) then
    true
  else
    decide (r.Comm < 0 ∨ r.Data < 0 ∨ r.Nav < 0 ∨ r.Power < 0 ∨ r.Heat < 0 ∨ r.Crew < 0)

/-- Model of `Sequence.isInvalid`. -/
def Sequence.isInvalid (self : Sequence) : Bool :=
  invalidAt self.scenario self.resources self.size

/-- Model of `Sequence.isSuccess`, ignoring Heat and Radiation. -/
def Sequence.isSuccess (self : Sequence) : Bool :=
  decide (self.scenario.Goal.Comm ≤ self.resources.Comm ∧
    self.scenario.Goal.Data ≤ self.resources.Data ∧
    self.scenario.Goal.Nav ≤ self.resources.Nav ∧
    self.scenario.Goal.Power ≤ self.resources.Power ∧
    (-self.scenario.Goal.Drift ≤ self.resources.Drift ∧
      self.resources.Drift ≤ self.scenario.Goal.Drift) ∧
    (self.scenario.Goal.Thrust ≤ self.resources.Thrust ∨ self.scenario.Goal.Thrust = 0))

/-- The beginning-of-turn adjustment of `Sequence.attemptAction`: when the new
size is `> 1` and starts a new turn, crew is reset to the scenario's starting
crew (when that is positive) and the turn cost is added. -/
def newTurnAdjust (scn : Scenario) (r : Resources) (newSize : Nat) : Resources :=
  if 1 < newSize ∧ newSize % scn.ActionsPerTurn = 1 then
    (if 0 < scn.Start.Crew then { r with Crew := scn.Start.Crew } else r).add scn.TurnCost
  else r

/-- Model of `Sequence.attemptAction`: build the successor state, fail (`none`) if it is
invalid after subtracting the command's input, or after also adding the
command's output; otherwise return the extended sequence. -/
def Sequence.attemptAction (self : Sequence) (command : Command) : Option Sequence :=
  let newSize := (self.size + 1) % U32
  let r1 := newTurnAdjust self.scenario self.resources newSize
  let r2 := r1.subtract command.Input
  if invalidAt self.scenario r2 newSize then none
  else
    let r3 := r2.add command.Output
    if invalidAt self.scenario r3 newSize then none
    else some (Sequence.mk self.scenario r3 (some command) (some self) newSize)

/-- Model of `Sequence.Search`: the children emitted via `onNext`, in order — one per
command whose `attemptAction` succeeds, and none at all when no more actions
are available. -/
def Sequence.Search (self : Sequence) : List Sequence :=
  if self.hasMoreActionsAvailable then
    self.scenario.Commands.filterMap (fun command => self.attemptAction command)
  else []

/-- Model of `Sequence.IsFound`. -/
def Sequence.IsFound (self : Sequence) : Bool := self.isSuccess

/-- Model of `Sequence.Score`: `int(self.Size*1000) - risk` with the `uint32`
multiplication wrapping. -/
def Sequence.Score (self : Sequence) : Int :=
  (((self.size * 1000) % U32 : Nat) : Int) - self.resources.risk self.scenario.Goal

/-- Model of `startSequence`. -/
def startSequence (scenario : Scenario) : Sequence :=
  Sequence.mk scenario scenario.Start none none 0

/-- A sequence whose `Resources` field is a pointer: `res` is the index of its
resources cell in a heap of `Resources` cells. Used to state what the
pointer-mutating Go code does and does not touch. -/
structure HSequence where
  scenario : Scenario
  res : Nat
  size : Nat
deriving DecidableEq

/-- Heap-passing version of `Sequence.attemptAction`: `resources := *self.Resources`
allocates a fresh cell (a copy of the parent's cell), all subsequent mutation
(`next.Resources.Crew = ...`, `add`, `subtract`) hits only that fresh cell,
and the returned child points at it. Returns the child (if the action is
legal) and the new heap. -/
def attemptActionH (heap : List Resources) (self : HSequence) (command : Command) :
    Option HSequence × List Resources :=
  let r0 := heap.getD self.res default
  let newSize := (self.size + 1) % U32
  let r1 := newTurnAdjust self.scenario r0 newSize
  let r2 := r1.subtract command.Input
  if invalidAt self.scenario r2 newSize then (none, heap ++ [r2])
  else
    let r3 := r2.add command.Output
    if invalidAt self.scenario r3 newSize then (none, heap ++ [r3])
    else (some ⟨self.scenario, heap.length, newSize⟩, heap ++ [r3])

/-- One iteration of the loop in `Sequence.Search`, heap-passing version:
attempt the command against the current heap and collect the child when the
attempt succeeds. -/
def searchStep (self : HSequence) (acc : List HSequence × List Resources)
    (command : Command) : List HSequence × List Resources :=
  ((attemptActionH acc.2 self command).1.elim acc.1 (fun child => acc.1 ++ [child]),
    (attemptActionH acc.2 self command).2)

/-- Heap-passing version of `Sequence.Search`: the emitted children and the
heap after all attempts. -/
def searchH (heap : List Resources) (self : HSequence) :
    List HSequence × List Resources :=
  if self.size < self.scenario.totalActions then
    self.scenario.Commands.foldl (searchStep self) ([], heap)
  else ([], heap)

/-- Invalidity of a candidate state exactly as claim C10 words it: some of
Comm, Data, Nav, Power, Heat or Crew is negative, or the step ends a turn
(size divisible by `ActionsPerTurn`) and the resources are not strictly
between `TurnMustEndAbove` and `TurnMustEndBelow` in every field. Stated
independently of `invalidAt` so the two can be compared. -/
def claimInvalid (scn : Scenario) (r : Resources) (n : Nat) : Prop :=
  r.Comm < 0 ∨ r.Data < 0 ∨ r.Nav < 0 ∨ r.Power < 0 ∨ r.Heat < 0 ∨ r.Crew < 0 ∨
    (n % scn.ActionsPerTurn = 0 ∧
      ¬(scn.TurnMustEndAbove.Comm < r.Comm ∧ r.Comm < scn.TurnMustEndBelow.Comm ∧
        scn.TurnMustEndAbove.Data < r.Data ∧ r.Data < scn.TurnMustEndBelow.Data ∧
        scn.TurnMustEndAbove.Nav < r.Nav ∧ r.Nav < scn.TurnMustEndBelow.Nav ∧
        scn.TurnMustEndAbove.Power < r.Power ∧ r.Power < scn.TurnMustEndBelow.Power ∧
        scn.TurnMustEndAbove.Drift < r.Drift ∧ r.Drift < scn.TurnMustEndBelow.Drift ∧
        scn.TurnMustEndAbove.Heat < r.Heat ∧ r.Heat < scn.TurnMustEndBelow.Heat ∧
        scn.TurnMustEndAbove.Thrust < r.Thrust ∧ r.Thrust < scn.TurnMustEndBelow.Thrust ∧
        scn.TurnMustEndAbove.Crew < r.Crew ∧ r.Crew < scn.TurnMustEndBelow.Crew ∧
        scn.TurnMustEndAbove.Radiation < r.Radiation ∧
          r.Radiation < scn.TurnMustEndBelow.Radiation))

end MH

namespace EX

open PS MH

/-- Concrete searchable universe over `Nat` for witness runs: node `0` has the
three goal children `1`, `2`, `3`; every nonzero node is a goal; a node's
score is its value. -/
def sp0 : SearchSpec Nat :=
  { children := fun n => if n = 0 then [1, 2, 3] else []
    isFound := fun n => n != 0
    score := fun n => (n : Int) }

/-- A reachable stuck state of the run with `depthLimit = 1`, `searchLimit = 1`,
`poolSize = 4` on root `0`: the caller received its quota (node `1`), the
channel buffer is full (node `2`), and one worker is blocked pushing node `3`
at depth `1`. -/
def cfgStuck : Config Nat :=
  { queue := []
    running := [⟨1, Phase.pushing 3⟩]
    results := [2]
    delivered := [1]
    searched := [1, 3]
    barrier := [0, 1]
    announceDepth := 0
    closed := false
    callerDone := true
    log := [(0, 0), (1, 1), (2, 1), (3, 1)]
    reported := [] }

/-- A reachable state of a `depthLimit = 0` run on root `0`, after the single
root was processed and pruned. -/
def cfg7 : Config Nat :=
  { queue := []
    running := []
    results := []
    delivered := []
    searched := [1]
    barrier := [0]
    announceDepth := 0
    closed := false
    callerDone := false
    log := [(0, 0)]
    reported := [] }

def zeroRes : Resources := ⟨0, 0, 0, 0, 0, 0, 0, 0, 0⟩

def aboveRes : Resources :=
  ⟨-100, -100, -100, -100, -100, -100, -100, -100, -100⟩

def belowRes : Resources := ⟨100, 100, 100, 100, 100, 100, 100, 100, 100⟩

def exCommand : Command := ⟨"act", zeroRes, zeroRes⟩

def exScenario : Scenario :=
  { Turns := 2
    ActionsPerTurn := 1
    Start := { zeroRes with Crew := 1 }
    Goal := zeroRes
    Commands := [exCommand]
    TurnCost := zeroRes
    TurnMustEndAbove := aboveRes
    TurnMustEndBelow := belowRes }

def exSeq : Sequence := startSequence exScenario

def exHSeq : HSequence := ⟨exScenario, 0, 0⟩

def exHeap : List Resources := [{ zeroRes with Crew := 1 }]

end EX

namespace PSLemmas

open PS

variable {σ : Type} {α : Type}

theorem countP_mid_true (p : α → Bool) (r1 r2 : List α) (w : α) (h : p w = true) :
    (r1 ++ w :: r2).countP p = (r1 ++ r2).countP p + 1 := by
  simp [List.countP_append, List.countP_cons, h]
  omega

theorem countP_mid_false (p : α → Bool) (r1 r2 : List α) (w : α) (h : p w = false) :
    (r1 ++ w :: r2).countP p = (r1 ++ r2).countP p := by
  simp [List.countP_append, List.countP_cons, h]

theorem countP_mid_congr (p : α → Bool) (r1 r2 : List α) (w w' : α)
    (h : p w = p w') :
    (r1 ++ w :: r2).countP p = (r1 ++ w' :: r2).countP p := by
  simp [List.countP_append, List.countP_cons, h]

theorem sum_map_mid (f : α → Nat) (r1 r2 : List α) (w : α) :
    ((r1 ++ w :: r2).map f).sum = ((r1 ++ r2).map f).sum + f w := by
  simp
  omega

theorem mem_of_mem_mid {x w : α} {r1 r2 : List α} (h : x ∈ r1 ++ r2) :
    x ∈ r1 ++ w :: r2 := by
  rcases List.mem_append.mp h with h1 | h2
  · exact List.mem_append.mpr (Or.inl h1)
  · exact List.mem_append.mpr (Or.inr (List.mem_cons_of_mem _ h2))

theorem mem_mid (w : α) (r1 r2 : List α) : w ∈ r1 ++ w :: r2 :=
  List.mem_append.mpr (Or.inr (List.mem_cons_self _ _))

theorem mem_mid_elim {x w : α} {r1 r2 : List α} (h : x ∈ r1 ++ w :: r2) :
    x = w ∨ x ∈ r1 ++ r2 := by
  rcases List.mem_append.mp h with h1 | h2
  · exact Or.inr (List.mem_append.mpr (Or.inl h1))
  · rcases List.mem_cons.mp h2 with h3 | h4
    · exact Or.inl h3
    · exact Or.inr (List.mem_append.mpr (Or.inr h4))

theorem getD_set_self : ∀ (l : List Nat) (i v : Nat), i < l.length →
    (l.set i v).getD i 0 = v
  | [], i, v, h => absurd h (by simp)
  | _ :: _, 0, _, _ => rfl
  | _ :: l, i + 1, v, h => getD_set_self l i v (by simpa using h)

theorem getD_set_ne : ∀ (l : List Nat) (i v k : Nat), k ≠ i →
    (l.set i v).getD k 0 = l.getD k 0
  | [], _, _, _, _ => by simp
  | _ :: _, 0, _, 0, h => absurd rfl h
  | _ :: _, 0, _, _ + 1, _ => rfl
  | _ :: _, _ + 1, _, 0, _ => rfl
  | _ :: l, i + 1, v, k + 1, h => getD_set_ne l i v k (fun e => h (by rw [e]))

theorem getD_replicate_zero : ∀ (n k : Nat), (List.replicate n (0 : Nat)).getD k 0 = 0
  | 0, _ => by simp
  | _ + 1, 0 => rfl
  | n + 1, k + 1 => getD_replicate_zero n k

theorem countP_pos_of_mem {p : α → Bool} {x : α} {l : List α}
    (hx : x ∈ l) (hp : p x = true) : 1 ≤ l.countP p :=
  List.countP_pos_iff.mpr ⟨x, hx, hp⟩

theorem countQ_append (d : Nat) (a b : List (σ × Nat)) :
    countQ d (a ++ b) = countQ d a + countQ d b := by
  simp [countQ, List.countP_append]

theorem countQ_cons (d : Nat) (t : σ × Nat) (l : List (σ × Nat)) :
    countQ d (t :: l) = countQ d l + (if t.2 == d then 1 else 0) := by
  simp [countQ, List.countP_cons]

theorem countQ_nil (d : Nat) : countQ d ([] : List (σ × Nat)) = 0 := rfl

theorem countR_append (d : Nat) (a b : List (Worker σ)) :
    countR d (a ++ b) = countR d a + countR d b := by
  simp [countR, List.countP_append]

theorem countR_cons (d : Nat) (w : Worker σ) (l : List (Worker σ)) :
    countR d (w :: l) = countR d l + (if w.depth == d then 1 else 0) := by
  simp [countR, List.countP_cons]

theorem countR_nil (d : Nat) : countR d ([] : List (Worker σ)) = 0 := rfl

theorem qPot_append (sp : SearchSpec σ) (dl : Nat) (a b : List (σ × Nat)) :
    qPot sp dl (a ++ b) = qPot sp dl a + qPot sp dl b := by
  simp [qPot]

theorem qPot_cons (sp : SearchSpec σ) (dl : Nat) (t : σ × Nat) (l : List (σ × Nat)) :
    qPot sp dl (t :: l) = goalsIn sp (dl - t.2) t.1 + qPot sp dl l := by
  simp [qPot]

theorem goalsIn_found (sp : SearchSpec σ) (b : Nat) (n : σ)
    (h : sp.isFound n = true) : goalsIn sp b n = 1 := by
  cases b <;> simp [goalsIn, h]

theorem dispatch_eq_pushing {sp : SearchSpec σ} {dl : Nat} {n n' : σ} {d : Nat}
    (h : dispatch sp dl n d = Phase.pushing n') : n' = n ∧ sp.isFound n = true := by
  unfold dispatch at h
  by_cases hf : sp.isFound n = true
  · simp [hf] at h
    exact ⟨h.symm, hf⟩
  · simp [hf] at h
    by_cases hd : d < dl <;> simp [hd] at h

theorem dispatch_eq_emitting {sp : SearchSpec σ} {dl : Nat} {n n' : σ} {d : Nat}
    {cs : List σ} (h : dispatch sp dl n d = Phase.emitting n' cs) :
    n' = n ∧ cs = sp.children n ∧ sp.isFound n = false ∧ d < dl := by
  unfold dispatch at h
  by_cases hf : sp.isFound n = true
  · simp [hf] at h
  · simp [hf] at h
    by_cases hd : d < dl
    · simp [hd] at h
      exact ⟨h.1.symm, h.2.symm, by simpa using hf, hd⟩
    · simp [hd] at h

theorem wPot_dispatch (sp : SearchSpec σ) (dl : Nat) (n : σ) (d : Nat) :
    wPot sp dl ⟨d, dispatch sp dl n d⟩ = goalsIn sp (dl - d) n := by
  unfold dispatch wPot
  by_cases hf : sp.isFound n = true
  · simp [hf, goalsIn_found sp _ n hf]
  · by_cases hd : d < dl
    · simp [hf, hd]
      have he : dl - d = (dl - (d + 1)) + 1 := by omega
      rw [he]
      simp [goalsIn, hf]
    · simp [hf, hd]
      have he : dl - d = 0 := by omega
      rw [he]
      simp [goalsIn, hf]

theorem countQ_map_root (d : Nat) (roots : List σ) :
    countQ d (roots.map (fun n => (n, 0))) = if 0 == d then roots.length else 0 := by
  induction roots with
  | nil => cases h : (0 == d) <;> simp [countQ, h]
  | cons r rs ih =>
    simp only [List.map_cons]
    rw [countQ_cons, ih]
    cases h : ((0 : Nat) == d) <;> simp [h]

/-- Every field of `Inv` holds in the state produced by `Start`. -/
theorem inv_init (sp : SearchSpec σ) (dl : Nat) (roots : List σ) :
    Inv sp dl roots (init dl roots) := by
  refine ⟨?_, ?_, ?_, ?_, ?_, ?_, ?_, ?_, ?_, ?_, ?_, ?_, ?_, ?_, ?_⟩
  · simp [init]
  · simp [init]
  · intro d
    simp only [init]
    rw [countQ_map_root]
    by_cases hd : d = 0
    · subst hd
      rw [getD_set_self _ _ _ (by simp)]
      simp [countR_nil]
    · rw [getD_set_ne _ _ _ _ hd, getD_replicate_zero]
      have : ((0 : Nat) == d) = false := by simpa using fun e => hd e.symm
      simp [this, countR_nil]
  · intro w hw
    simp [init] at hw
  · intro w hw
    simp [init] at hw
  · intro x hx
    simp [init] at hx
  · intro x hx
    simp [init] at hx
  · intro t ht
    simp only [init] at ht
    rcases List.mem_map.mp ht with ⟨n, _, rfl⟩
    simp
  · intro w hw
    simp [init] at hw
  · intro t ht
    simp [init] at ht
  · intro d
    simp [init, getD_replicate_zero, countQ_nil]
  · simp only [potential, init, qPot, totalGoals, List.map_map]
    have he : ((fun t : σ × Nat => goalsIn sp (dl - t.2) t.1) ∘ fun n => (n, 0))
        = goalsIn sp dl := by
      funext n
      simp
    simp [he]
  · intro k hk
    simp [init] at hk
  · intro h
    simp [init] at h
  · intro p hp
    simp [init] at hp

theorem countR_mid_congr (d : Nat) (r1 r2 : List (Worker σ)) (w w' : Worker σ)
    (h : w.depth = w'.depth) :
    countR d (r1 ++ w :: r2) = countR d (r1 ++ w' :: r2) :=
  countP_mid_congr _ _ _ _ _ (by rw [h])

theorem sum_wPot_mid (sp : SearchSpec σ) (dl : Nat) (r1 r2 : List (Worker σ))
    (w : Worker σ) :
    ((r1 ++ w :: r2).map (wPot sp dl)).sum
      = ((r1 ++ r2).map (wPot sp dl)).sum + wPot sp dl w :=
  sum_map_mid _ _ _ _

theorem qPot_nil (sp : SearchSpec σ) (dl : Nat) : qPot sp dl ([] : List (σ × Nat)) = 0 := rfl

theorem countQ_single (d : Nat) (t : σ × Nat) :
    countQ d [t] = if t.2 = d then 1 else 0 := by
  by_cases h : t.2 = d <;> simp [countQ, List.countP_cons, h]

theorem countR_mid_rem_true (d : Nat) (r1 r2 : List (Worker σ)) (w : Worker σ)
    (h : w.depth = d) : countR d (r1 ++ w :: r2) = countR d (r1 ++ r2) + 1 :=
  countP_mid_true _ _ _ _ (by simp [h])

theorem countR_mid_rem_false (d : Nat) (r1 r2 : List (Worker σ)) (w : Worker σ)
    (h : ¬w.depth = d) : countR d (r1 ++ w :: r2) = countR d (r1 ++ r2) :=
  countP_mid_false _ _ _ _ (by simp [h])

/-- Invariant `Inv` is preserved when a worker starts a queued task. -/
theorem inv_start (sp : SearchSpec σ) (dl : Nat) (roots : List σ) (c : Config σ)
    (q1 q2 : List (σ × Nat)) (n : σ) (d : Nat)
    (hq : c.queue = q1 ++ (n, d) :: q2) (hc : Inv sp dl roots c) :
    Inv sp dl roots
      { c with queue := q1 ++ q2
               running := c.running ++ [⟨d, dispatch sp dl n d⟩]
               searched := bumpL c.searched d
               log := c.log ++ [(n, d)] } := by
  have htq : (n, d) ∈ c.queue := by
    rw [hq]
    exact mem_mid _ _ _
  have hd : d ≤ dl := hc.queue_depth _ htq
  refine ⟨?_, ?_, ?_, ?_, ?_, ?_, ?_, ?_, ?_, ?_, ?_, ?_, ?_, ?_, ?_⟩
  · simp [bumpL, hc.searched_len]
  · exact hc.barrier_len
  · intro d'
    have hb := hc.barrier_eq d'
    rw [hq, countQ_append, countQ_cons] at hb
    dsimp only
    rw [countQ_append, countR_append, countR_cons, countR_nil]
    dsimp only at hb ⊢
    cases hdd : (d == d') <;> simp only [hdd] at hb ⊢ <;> simp at hb ⊢ <;> omega
  · intro w hw n' hph
    dsimp only at hw
    rcases List.mem_append.mp hw with h1 | h2
    · exact hc.pushing_found w h1 n' hph
    · have hww : w = ⟨d, dispatch sp dl n d⟩ := by simpa using h2
      subst hww
      dsimp only at hph
      obtain ⟨rfl, hf⟩ := dispatch_eq_pushing hph
      exact hf
  · intro w hw n' cs hph
    dsimp only at hw
    rcases List.mem_append.mp hw with h1 | h2
    · exact hc.emitting_ok w h1 n' cs hph
    · have hww : w = ⟨d, dispatch sp dl n d⟩ := by simpa using h2
      subst hww
      dsimp only at hph
      obtain ⟨rfl, rfl, hnf, hdlt⟩ := dispatch_eq_emitting hph
      exact ⟨hnf, hdlt, [], by simp⟩
  · exact hc.results_found
  · exact hc.delivered_found
  · intro t ht
    dsimp only at ht
    exact hc.queue_depth t (hq ▸ mem_of_mem_mid ht)
  · intro w hw
    dsimp only at hw
    rcases List.mem_append.mp hw with h1 | h2
    · exact hc.running_depth w h1
    · have hww : w = ⟨d, dispatch sp dl n d⟩ := by simpa using h2
      subst hww
      exact hd
  · intro t ht
    dsimp only at ht
    rcases List.mem_append.mp ht with h1 | h2
    · exact hc.log_depth t h1
    · have : t = (n, d) := by simpa using h2
      subst this
      exact hd
  · intro d'
    dsimp only
    rw [countQ_append, countQ_cons, countQ_nil]
    by_cases hdd : d' = d
    · subst hdd
      rw [bumpL, getD_set_self _ _ _ (by rw [hc.searched_len]; omega), hc.searched_eq d']
      simp
    · rw [bumpL, getD_set_ne _ _ _ _ hdd, hc.searched_eq d']
      have hne : (((n, d).2) == d') = false := by
        simp only []
        simp
        exact fun e => hdd e.symm
      simp [hne]
  · have hp := hc.potential_eq
    dsimp only [potential] at hp ⊢
    rw [hq, qPot_append, qPot_cons] at hp
    rw [qPot_append, List.map_append, List.sum_append]
    simp only [List.map_cons, List.map_nil, List.sum_cons, List.sum_nil]
    rw [wPot_dispatch]
    dsimp only at hp
    omega
  · intro k hk
    exact hc.quiescent k hk
  · exact hc.closed_ad
  · intro p hp
    obtain ⟨h1, h2, h3⟩ := hc.reported_ok p hp
    refine ⟨h1, ?_, h3⟩
    dsimp only
    rw [bumpL, getD_set_ne]
    · exact h2
    · have hb := hc.barrier_eq d
      have hcq : 1 ≤ countQ d c.queue := by
        rw [hq]
        exact countP_pos_of_mem (mem_mid _ _ _) (by simp)
      intro he
      have h0 := hc.quiescent p.1 h3
      rw [he] at h0
      omega

/-- Invariant `Inv` is preserved when a blocked producer completes its channel send. -/
theorem inv_push (sp : SearchSpec σ) (dl : Nat) (roots : List σ) (c : Config σ)
    (r1 r2 : List (Worker σ)) (d : Nat) (n : σ)
    (hr : c.running = r1 ++ ⟨d, Phase.pushing n⟩ :: r2) (hc : Inv sp dl roots c) :
    Inv sp dl roots
      { c with running := r1 ++ ⟨d, Phase.finishing⟩ :: r2
               results := c.results ++ [n] } := by
  have hwold : (⟨d, Phase.pushing n⟩ : Worker σ) ∈ c.running := by
    rw [hr]
    exact mem_mid _ _ _
  have hfound : sp.isFound n = true := hc.pushing_found _ hwold n rfl
  refine ⟨hc.searched_len, hc.barrier_len, ?_, ?_, ?_, ?_, hc.delivered_found, hc.queue_depth,
    ?_, hc.log_depth, hc.searched_eq, ?_, hc.quiescent, hc.closed_ad, hc.reported_ok⟩
  · intro d'
    have hb := hc.barrier_eq d'
    rw [hr] at hb
    dsimp only
    rw [countR_mid_congr d' r1 r2 (⟨d, Phase.finishing⟩ : Worker σ)
      (⟨d, Phase.pushing n⟩ : Worker σ) rfl]
    exact hb
  · intro w hw n' hph
    dsimp only at hw
    rcases mem_mid_elim hw with h1 | h2
    · subst h1
      simp at hph
    · exact hc.pushing_found w (hr ▸ mem_of_mem_mid h2) n' hph
  · intro w hw n' cs hph
    dsimp only at hw
    rcases mem_mid_elim hw with h1 | h2
    · subst h1
      simp at hph
    · exact hc.emitting_ok w (hr ▸ mem_of_mem_mid h2) n' cs hph
  · intro x hx
    dsimp only at hx
    rcases List.mem_append.mp hx with h1 | h2
    · exact hc.results_found x h1
    · have hxn : x = n := by simpa using h2
      subst hxn
      exact hfound
  · intro w hw
    dsimp only at hw
    rcases mem_mid_elim hw with h1 | h2
    · subst h1
      exact hc.running_depth ⟨d, Phase.pushing n⟩ hwold
    · exact hc.running_depth w (hr ▸ mem_of_mem_mid h2)
  · have hp := hc.potential_eq
    dsimp only [potential] at hp ⊢
    rw [hr, sum_wPot_mid] at hp
    rw [sum_wPot_mid]
    simp only [wPot, List.length_append, List.length_cons, List.length_nil] at hp ⊢
    omega

/-- Invariant `Inv` is preserved when a worker hands one child to `asyncSearch`. -/
theorem inv_emit (sp : SearchSpec σ) (dl : Nat) (roots : List σ) (c : Config σ)
    (r1 r2 : List (Worker σ)) (d : Nat) (n x : σ) (cs : List σ)
    (hr : c.running = r1 ++ ⟨d, Phase.emitting n (x :: cs)⟩ :: r2) (hc : Inv sp dl roots c) :
    Inv sp dl roots
      { c with running := r1 ++ ⟨d, Phase.emitting n cs⟩ :: r2
               queue := c.queue ++ [(x, d + 1)]
               barrier := bumpL c.barrier (d + 1) } := by
  have hwold : (⟨d, Phase.emitting n (x :: cs)⟩ : Worker σ) ∈ c.running := by
    rw [hr]
    exact mem_mid _ _ _
  obtain ⟨hnf, hdlt, pre, hpre⟩ := hc.emitting_ok _ hwold n (x :: cs) rfl
  have hdep : d < dl := hdlt
  refine ⟨hc.searched_len, ?_, ?_, ?_, ?_, hc.results_found, hc.delivered_found, ?_,
    ?_, hc.log_depth, hc.searched_eq, ?_, ?_, hc.closed_ad, hc.reported_ok⟩
  · simp [bumpL, hc.barrier_len]
  · intro d'
    have hb := hc.barrier_eq d'
    rw [hr] at hb
    dsimp only
    rw [countR_mid_congr d' r1 r2 (⟨d, Phase.emitting n cs⟩ : Worker σ)
      (⟨d, Phase.emitting n (x :: cs)⟩ : Worker σ) rfl]
    rw [countQ_append, countQ_single]
    by_cases hdd : d' = d + 1
    · rw [bumpL, hdd, getD_set_self _ _ _ (by rw [hc.barrier_len]; omega)]
      rw [hdd] at hb
      rw [if_pos rfl]
      omega
    · rw [bumpL, getD_set_ne _ _ _ _ hdd, if_neg (fun e => hdd (Eq.symm e))]
      omega
  · intro w hw n' hph
    dsimp only at hw
    rcases mem_mid_elim hw with h1 | h2
    · subst h1
      simp at hph
    · exact hc.pushing_found w (hr ▸ mem_of_mem_mid h2) n' hph
  · intro w hw n' cs' hph
    dsimp only at hw
    rcases mem_mid_elim hw with h1 | h2
    · subst h1
      dsimp only at hph
      obtain ⟨he1, he2⟩ := Phase.emitting.inj hph
      subst he1
      subst he2
      exact ⟨hnf, hdep, pre ++ [x], by rw [hpre]; simp⟩
    · exact hc.emitting_ok w (hr ▸ mem_of_mem_mid h2) n' cs' hph
  · intro t ht
    dsimp only at ht
    rcases List.mem_append.mp ht with h1 | h2
    · exact hc.queue_depth t h1
    · have htx : t = (x, d + 1) := by simpa using h2
      subst htx
      dsimp only
      omega
  · intro w hw
    dsimp only at hw
    rcases mem_mid_elim hw with h1 | h2
    · subst h1
      dsimp only
      omega
    · exact hc.running_depth w (hr ▸ mem_of_mem_mid h2)
  · have hp := hc.potential_eq
    dsimp only [potential] at hp ⊢
    rw [hr, sum_wPot_mid] at hp
    rw [sum_wPot_mid, qPot_append, qPot_cons, qPot_nil]
    simp only [wPot, List.map_cons, List.sum_cons] at hp ⊢
    omega
  · intro k hk
    dsimp only at hk ⊢
    by_cases hkd : k = d + 1
    · exfalso
      have hda : d < c.announceDepth := by omega
      have h0 := hc.quiescent d hda
      have hb := hc.barrier_eq d
      have hcr : 1 ≤ countR d c.running := by
        rw [hr]
        exact countP_pos_of_mem (mem_mid _ _ _) (by simp)
      omega
    · rw [bumpL, getD_set_ne _ _ _ _ hkd]
      exact hc.quiescent k hk

/-- Invariant `Inv` is preserved when a worker runs out of children to emit. -/
theorem inv_emitDone (sp : SearchSpec σ) (dl : Nat) (roots : List σ) (c : Config σ)
    (r1 r2 : List (Worker σ)) (d : Nat) (n : σ)
    (hr : c.running = r1 ++ ⟨d, Phase.emitting n []⟩ :: r2) (hc : Inv sp dl roots c) :
    Inv sp dl roots { c with running := r1 ++ ⟨d, Phase.finishing⟩ :: r2 } := by
  have hwold : (⟨d, Phase.emitting n []⟩ : Worker σ) ∈ c.running := by
    rw [hr]
    exact mem_mid _ _ _
  refine ⟨hc.searched_len, hc.barrier_len, ?_, ?_, ?_, hc.results_found, hc.delivered_found,
    hc.queue_depth, ?_, hc.log_depth, hc.searched_eq, ?_, hc.quiescent, hc.closed_ad,
    hc.reported_ok⟩
  · intro d'
    have hb := hc.barrier_eq d'
    rw [hr] at hb
    dsimp only
    rw [countR_mid_congr d' r1 r2 (⟨d, Phase.finishing⟩ : Worker σ)
      (⟨d, Phase.emitting n []⟩ : Worker σ) rfl]
    exact hb
  · intro w hw n' hph
    dsimp only at hw
    rcases mem_mid_elim hw with h1 | h2
    · subst h1
      simp at hph
    · exact hc.pushing_found w (hr ▸ mem_of_mem_mid h2) n' hph
  · intro w hw n' cs' hph
    dsimp only at hw
    rcases mem_mid_elim hw with h1 | h2
    · subst h1
      simp at hph
    · exact hc.emitting_ok w (hr ▸ mem_of_mem_mid h2) n' cs' hph
  · intro w hw
    dsimp only at hw
    rcases mem_mid_elim hw with h1 | h2
    · subst h1
      exact hc.running_depth ⟨d, Phase.emitting n []⟩ hwold
    · exact hc.running_depth w (hr ▸ mem_of_mem_mid h2)
  · have hp := hc.potential_eq
    dsimp only [potential] at hp ⊢
    rw [hr, sum_wPot_mid] at hp
    rw [sum_wPot_mid]
    simp only [wPot, List.map_nil, List.sum_nil] at hp ⊢
    omega

/-- Invariant `Inv` is preserved when a worker decrements its depth's barrier and exits. -/
theorem inv_finish (sp : SearchSpec σ) (dl : Nat) (roots : List σ) (c : Config σ)
    (r1 r2 : List (Worker σ)) (d : Nat)
    (hr : c.running = r1 ++ ⟨d, Phase.finishing⟩ :: r2) (hc : Inv sp dl roots c) :
    Inv sp dl roots
      { c with running := r1 ++ r2
               barrier := dropL c.barrier d } := by
  have hwold : (⟨d, Phase.finishing⟩ : Worker σ) ∈ c.running := by
    rw [hr]
    exact mem_mid _ _ _
  have hd : d ≤ dl := hc.running_depth ⟨d, Phase.finishing⟩ hwold
  refine ⟨hc.searched_len, ?_, ?_, ?_, ?_, hc.results_found, hc.delivered_found,
    hc.queue_depth, ?_, hc.log_depth, hc.searched_eq, ?_, ?_, hc.closed_ad,
    hc.reported_ok⟩
  · simp [dropL, hc.barrier_len]
  · intro d'
    have hb := hc.barrier_eq d'
    rw [hr] at hb
    dsimp only
    by_cases hdd : d' = d
    · rw [hdd, dropL, getD_set_self _ _ _ (by rw [hc.barrier_len]; omega)]
      rw [hdd] at hb
      rw [countR_mid_rem_true d r1 r2 ⟨d, Phase.finishing⟩ rfl] at hb
      omega
    · rw [dropL, getD_set_ne _ _ _ _ hdd]
      rw [countR_mid_rem_false d' r1 r2 ⟨d, Phase.finishing⟩
        (fun e => hdd (Eq.symm e))] at hb
      exact hb
  · intro w hw n' hph
    dsimp only at hw
    exact hc.pushing_found w (hr ▸ mem_of_mem_mid hw) n' hph
  · intro w hw n' cs' hph
    dsimp only at hw
    exact hc.emitting_ok w (hr ▸ mem_of_mem_mid hw) n' cs' hph
  · intro w hw
    dsimp only at hw
    exact hc.running_depth w (hr ▸ mem_of_mem_mid hw)
  · have hp := hc.potential_eq
    dsimp only [potential] at hp ⊢
    rw [hr, sum_wPot_mid] at hp
    simp only [wPot] at hp
    omega
  · intro k hk
    dsimp only at hk ⊢
    by_cases hkd : k = d
    · exfalso
      have h0 := hc.quiescent k hk
      have hb := hc.barrier_eq k
      have hcr : 1 ≤ countR k c.running := by
        rw [hr]
        refine countP_pos_of_mem (mem_mid _ _ _) ?_
        simp [hkd]
      omega
    · rw [dropL, getD_set_ne _ _ _ _ hkd]
      exact hc.quiescent k hk

/-- Invariant `Inv` is preserved when the announcer passes a cleared depth. -/
theorem inv_announce (sp : SearchSpec σ) (dl : Nat) (roots : List σ) (c : Config σ)
    (had : c.announceDepth ≤ dl) (hb0 : c.barrier.getD c.announceDepth 0 = 0)
    (hc : Inv sp dl roots c) :
    Inv sp dl roots
      { c with announceDepth := c.announceDepth + 1
               reported :=
                 if 0 < c.searched.getD c.announceDepth 0 then
                   c.reported ++ [(c.announceDepth, c.searched.getD c.announceDepth 0)]
                 else c.reported } := by
  refine ⟨hc.searched_len, hc.barrier_len, hc.barrier_eq, hc.pushing_found, hc.emitting_ok,
    hc.results_found, hc.delivered_found, hc.queue_depth, hc.running_depth, hc.log_depth,
    hc.searched_eq, hc.potential_eq, ?_, ?_, ?_⟩
  · intro k hk
    dsimp only at hk ⊢
    by_cases hka : k = c.announceDepth
    · rw [hka]
      exact hb0
    · exact hc.quiescent k (by omega)
  · intro h
    dsimp only at h
    exact absurd (hc.closed_ad h) (by omega)
  · intro p hp
    dsimp only at hp ⊢
    by_cases hs : 0 < c.searched.getD c.announceDepth 0
    · rw [if_pos hs] at hp
      rcases List.mem_append.mp hp with h1 | h2
      · obtain ⟨g1, g2, g3⟩ := hc.reported_ok p h1
        exact ⟨g1, g2, by omega⟩
      · have hpe : p = (c.announceDepth, c.searched.getD c.announceDepth 0) := by
          simpa using h2
        subst hpe
        exact ⟨hs, rfl, by omega⟩
    · rw [if_neg hs] at hp
      obtain ⟨g1, g2, g3⟩ := hc.reported_ok p hp
      exact ⟨g1, g2, by omega⟩

/-- Invariant `Inv` is preserved when the result channel is closed. -/
theorem inv_close (sp : SearchSpec σ) (dl : Nat) (roots : List σ) (c : Config σ)
    (had : c.announceDepth = dl + 1) (hc : Inv sp dl roots c) :
    Inv sp dl roots { c with closed := true } :=
  ⟨hc.searched_len, hc.barrier_len, hc.barrier_eq, hc.pushing_found, hc.emitting_ok,
    hc.results_found, hc.delivered_found, hc.queue_depth, hc.running_depth, hc.log_depth,
    hc.searched_eq, hc.potential_eq, hc.quiescent, fun _ => had, hc.reported_ok⟩

/-- Invariant `Inv` is preserved when `WaitForFound` receives one channel entry. -/
theorem inv_recv (sp : SearchSpec σ) (dl : Nat) (roots : List σ) (c : Config σ)
    (x : σ) (rest : List σ) (b : Bool)
    (hres : c.results = x :: rest) (hc : Inv sp dl roots c) :
    Inv sp dl roots
      { c with results := rest
               delivered := c.delivered ++ [x]
               callerDone := b } := by
  refine ⟨hc.searched_len, hc.barrier_len, hc.barrier_eq, hc.pushing_found, hc.emitting_ok,
    ?_, ?_, hc.queue_depth, hc.running_depth, hc.log_depth, hc.searched_eq, ?_,
    hc.quiescent, hc.closed_ad, hc.reported_ok⟩
  · intro y hy
    dsimp only at hy
    exact hc.results_found y (by rw [hres]; exact List.mem_cons_of_mem _ hy)
  · intro y hy
    dsimp only at hy
    rcases List.mem_append.mp hy with h1 | h2
    · exact hc.delivered_found y h1
    · have hyx : y = x := by simpa using h2
      subst hyx
      exact hc.results_found y (by rw [hres]; exact List.mem_cons_self _ _)
  · have hp := hc.potential_eq
    dsimp only [potential] at hp ⊢
    rw [hres] at hp
    simp only [List.length_cons, List.length_append, List.length_nil] at hp ⊢
    omega

/-- Invariant `Inv` is preserved when `WaitForFound` exits on a closed, drained channel. -/
theorem inv_recvClose (sp : SearchSpec σ) (dl : Nat) (roots : List σ) (c : Config σ)
    (hc : Inv sp dl roots c) :
    Inv sp dl roots { c with callerDone := true } :=
  ⟨hc.searched_len, hc.barrier_len, hc.barrier_eq, hc.pushing_found, hc.emitting_ok,
    hc.results_found, hc.delivered_found, hc.queue_depth, hc.running_depth, hc.log_depth,
    hc.searched_eq, hc.potential_eq, hc.quiescent, hc.closed_ad, hc.reported_ok⟩

/-- Invariant `Inv` is preserved by every step of the system. -/
theorem inv_step (sp : SearchSpec σ) (dl sl ps : Nat) (roots : List σ) {c c' : Config σ}
    (hstep : Step sp dl sl ps c c') (hc : Inv sp dl roots c) : Inv sp dl roots c' := by
  cases hstep with
  | start q1 q2 n d hq hpool => exact inv_start sp dl roots c q1 q2 n d hq hc
  | push r1 r2 d n hr hcap => exact inv_push sp dl roots c r1 r2 d n hr hc
  | emit r1 r2 d n x cs hr => exact inv_emit sp dl roots c r1 r2 d n x cs hr hc
  | emitDone r1 r2 d n hr => exact inv_emitDone sp dl roots c r1 r2 d n hr hc
  | finish r1 r2 d hr => exact inv_finish sp dl roots c r1 r2 d hr hc
  | announce had hb0 => exact inv_announce sp dl roots c had hb0 hc
  | close had hcl => exact inv_close sp dl roots c had hc
  | recv x rest hres hdone => exact inv_recv sp dl roots c x rest _ hres hc
  | recvClose hres hcl hdone => exact inv_recvClose sp dl roots c hc

/-- Every reachable engine state satisfies `Inv`. -/
theorem reachable_inv (sp : SearchSpec σ) (dl sl ps : Nat) (roots : List σ)
    {c : Config σ} (h : Reachable sp dl sl ps roots c) : Inv sp dl roots c := by
  induction h with
  | refl => exact inv_init sp dl roots
  | tail h1 h2 ih => exact inv_step sp dl sl ps roots h2 ih

/-- Invariant `DInv` holds at `Start` when `searchLimit` is positive. -/
theorem dinv_init (dl sl : Nat) (roots : List σ) (hsl : 1 ≤ sl) :
    DInv sl (init dl roots (σ := σ)) := by
  refine ⟨?_, ?_, ?_⟩
  · simp [init]
  · intro _
    simp only [init, List.length_nil]
    omega
  · intro h
    simp [init] at h

/-- Invariant `DInv` is preserved by every step of the system. -/
theorem dinv_step (sp : SearchSpec σ) (dl sl ps : Nat) {c c' : Config σ}
    (hstep : Step sp dl sl ps c c') (hd : DInv sl c) : DInv sl c' := by
  cases hstep with
  | start q1 q2 n d hq hpool => exact ⟨hd.delivered_le, hd.not_done_lt, hd.done_reason⟩
  | push r1 r2 d n hr hcap => exact ⟨hd.delivered_le, hd.not_done_lt, hd.done_reason⟩
  | emit r1 r2 d n x cs hr => exact ⟨hd.delivered_le, hd.not_done_lt, hd.done_reason⟩
  | emitDone r1 r2 d n hr => exact ⟨hd.delivered_le, hd.not_done_lt, hd.done_reason⟩
  | finish r1 r2 d hr => exact ⟨hd.delivered_le, hd.not_done_lt, hd.done_reason⟩
  | announce had hb0 => exact ⟨hd.delivered_le, hd.not_done_lt, hd.done_reason⟩
  | close had hcl => exact ⟨hd.delivered_le, hd.not_done_lt, fun _ => Or.inr rfl⟩
  | recv x rest hres hdone =>
    have hlt : c.delivered.length < sl := hd.not_done_lt hdone
    refine ⟨?_, ?_, ?_⟩
    · simp only [List.length_append, List.length_cons, List.length_nil]
      omega
    · intro h
      dsimp only at h
      simp only [decide_eq_false_iff_not, not_le] at h
      simp only [List.length_append, List.length_cons, List.length_nil]
      omega
    · intro h
      dsimp only at h
      simp only [decide_eq_true_eq] at h
      refine Or.inl ?_
      simp only [List.length_append, List.length_cons, List.length_nil]
      omega
  | recvClose hres hcl hdone =>
    exact ⟨hd.delivered_le, fun h => by simp at h, fun _ => Or.inr hcl⟩

/-- Every reachable engine state satisfies `DInv` when `searchLimit` is positive. -/
theorem reachable_dinv (sp : SearchSpec σ) (dl sl ps : Nat) (roots : List σ)
    (hsl : 1 ≤ sl) {c : Config σ} (h : Reachable sp dl sl ps roots c) : DInv sl c := by
  induction h with
  | refl => exact dinv_init dl sl roots hsl
  | tail h1 h2 ih => exact dinv_step sp dl sl ps h2 ih

theorem sortDesc_perm (score : σ → Int) (l : List σ) : (sortDesc score l).Perm l :=
  List.perm_insertionSort _ l

theorem sortDesc_sorted (score : σ → Int) (l : List σ) :
    List.Sorted (fun a b => score b ≤ score a) (sortDesc score l) := by
  haveI : IsTotal σ (fun a b => score b ≤ score a) := ⟨fun a b => le_total _ _⟩
  haveI : IsTrans σ (fun a b => score b ≤ score a) :=
    ⟨fun _ _ _ h1 h2 => le_trans h2 h1⟩
  exact List.sorted_insertionSort _ l

theorem sortDesc_length (score : σ → Int) (l : List σ) :
    (sortDesc score l).length = l.length :=
  (sortDesc_perm score l).length_eq

theorem sortDesc_mem (score : σ → Int) (l : List σ) (x : σ) :
    x ∈ sortDesc score l ↔ x ∈ l :=
  (sortDesc_perm score l).mem_iff

/-- Summing the per-depth counts of a log over all depths below `m` recovers
the length of the log. -/
theorem sum_countQ (m : Nat) (l : List (σ × Nat)) (h : ∀ t ∈ l, t.2 < m) :
    ∑ d ∈ Finset.range m, countQ d l = l.length := by
  induction l with
  | nil => simp [countQ_nil]
  | cons t ts ih =>
    have ht : t.2 < m := h t (List.mem_cons_self _ _)
    have ihh := ih (fun x hx => h x (List.mem_cons_of_mem _ hx))
    simp only [countQ_cons, List.length_cons]
    rw [Finset.sum_add_distrib, ihh]
    have he : (∑ d ∈ Finset.range m, if t.2 == d then 1 else 0) = 1 := by
      have hx : ∀ d ∈ Finset.range m, (if t.2 == d then 1 else 0)
          = if t.2 = d then 1 else 0 := by
        intro d _
        by_cases hdd : t.2 = d <;> simp [hdd]
      rw [Finset.sum_congr rfl hx, Finset.sum_ite_eq]
      simp [ht]
    omega

theorem inv0_step (sp : SearchSpec σ) (sl ps : Nat) (roots : List σ) {c c' : Config σ}
    (hstep : Step sp 0 sl ps c c') (hc : Inv sp 0 roots c) (h0 : Inv0 roots c) :
    Inv0 roots c' := by
  cases hstep with
  | start q1 q2 n d hq hpool =>
    have hnq : (n, d) ∈ c.queue := by
      rw [hq]
      exact mem_mid _ _ _
    obtain ⟨hnr, hd0⟩ := h0.queue_root _ hnq
    refine ⟨?_, ?_, ?_⟩
    · intro t ht
      dsimp only at ht
      exact h0.queue_root t (hq ▸ mem_of_mem_mid ht)
    · intro w hw
      dsimp only at hw
      rcases List.mem_append.mp hw with h1 | h2
      · exact h0.running_zero w h1
      · have hww : w = ⟨d, dispatch sp 0 n d⟩ := by simpa using h2
        subst hww
        exact hd0
    · intro t ht
      dsimp only at ht
      rcases List.mem_append.mp ht with h1 | h2
      · exact h0.log_root t h1
      · have hte : t = (n, d) := by simpa using h2
        subst hte
        exact ⟨hnr, hd0⟩
  | push r1 r2 d n hr hcap =>
    refine ⟨h0.queue_root, ?_, h0.log_root⟩
    intro w hw
    dsimp only at hw
    rcases mem_mid_elim hw with h1 | h2
    · subst h1
      exact h0.running_zero ⟨d, Phase.pushing n⟩ (hr ▸ mem_mid _ _ _)
    · exact h0.running_zero w (hr ▸ mem_of_mem_mid h2)
  | emit r1 r2 d n x cs hr =>
    exact absurd ((hc.emitting_ok _ (hr ▸ mem_mid _ _ _) n (x :: cs) rfl).2.1)
      (by omega)
  | emitDone r1 r2 d n hr =>
    refine ⟨h0.queue_root, ?_, h0.log_root⟩
    intro w hw
    dsimp only at hw
    rcases mem_mid_elim hw with h1 | h2
    · subst h1
      exact h0.running_zero ⟨d, Phase.emitting n []⟩ (hr ▸ mem_mid _ _ _)
    · exact h0.running_zero w (hr ▸ mem_of_mem_mid h2)
  | finish r1 r2 d hr =>
    refine ⟨h0.queue_root, ?_, h0.log_root⟩
    intro w hw
    dsimp only at hw
    exact h0.running_zero w (hr ▸ mem_of_mem_mid hw)
  | announce had hb0 => exact ⟨h0.queue_root, h0.running_zero, h0.log_root⟩
  | close had hcl => exact ⟨h0.queue_root, h0.running_zero, h0.log_root⟩
  | recv x rest hres hdone => exact ⟨h0.queue_root, h0.running_zero, h0.log_root⟩
  | recvClose hres hcl hdone => exact ⟨h0.queue_root, h0.running_zero, h0.log_root⟩

theorem reachable_inv0 (sp : SearchSpec σ) (sl ps : Nat) (roots : List σ)
    {c : Config σ} (h : Reachable sp 0 sl ps roots c) : Inv0 roots c := by
  induction h with
  | refl =>
    refine ⟨?_, ?_, ?_⟩
    · intro t ht
      simp only [init] at ht
      rcases List.mem_map.mp ht with ⟨n, hn, rfl⟩
      exact ⟨hn, rfl⟩
    · intro w hw
      simp [init] at hw
    · intro t ht
      simp [init] at ht
  | tail h1 h2 ih => exact inv0_step sp sl ps roots h2 (reachable_inv sp 0 sl ps roots h1) ih

theorem countPushing_le_countR (d : Nat) (r : List (Worker σ)) :
    countPushing d r ≤ countR d r := by
  refine List.countP_mono_left ?_
  intro w _ hw
  exact (Bool.and_elim_left hw)

theorem countPushing_elim {d : Nat} {r : List (Worker σ)}
    (h : 1 ≤ countPushing d r) : ∃ w ∈ r, w.depth = d ∧ isPushing w.phase = true := by
  have h' : 0 < r.countP (fun w => w.depth == d && isPushing w.phase) := h
  obtain ⟨w, hw, hp⟩ := List.countP_pos_iff.mp h'
  rw [Bool.and_eq_true] at hp
  exact ⟨w, hw, by simpa using hp.1, hp.2⟩

theorem countPushing_append (d : Nat) (a b : List (Worker σ)) :
    countPushing d (a ++ b) = countPushing d a + countPushing d b := by
  simp [countPushing, List.countP_append]

/-- Once the system is in the stuck shape, no step leaves it: the caller never
receives again, the full buffer blocks every push, and the announcer can never
pass depth `d` because the blocked worker keeps the barrier positive. -/
theorem stuck_step (sp : SearchSpec σ) (dl sl ps d : Nat) (roots : List σ)
    {c c' : Config σ} (hstep : Step sp dl sl ps c c') (hinv : Inv sp dl roots c)
    (hs : StuckAt sl d c) : StuckAt sl d c' := by
  obtain ⟨hdone, hfull, hpush, had⟩ := hs
  cases hstep with
  | start q1 q2 n d0 hq hpool =>
    refine ⟨hdone, hfull, ?_, had⟩
    dsimp only
    rw [countPushing_append]
    omega
  | push r1 r2 d0 n hr hcap => exact absurd hcap (by omega)
  | emit r1 r2 d0 n x cs hr =>
    refine ⟨hdone, hfull, ?_, had⟩
    dsimp only
    rw [show countPushing d (r1 ++ (⟨d0, Phase.emitting n cs⟩ : Worker σ) :: r2)
          = countPushing d (r1 ++ (⟨d0, Phase.emitting n (x :: cs)⟩ : Worker σ) :: r2) from
        countP_mid_congr _ _ _ _ _ (by simp [isPushing]), ← hr]
    exact hpush
  | emitDone r1 r2 d0 n hr =>
    refine ⟨hdone, hfull, ?_, had⟩
    dsimp only
    rw [show countPushing d (r1 ++ (⟨d0, Phase.finishing⟩ : Worker σ) :: r2)
          = countPushing d (r1 ++ (⟨d0, Phase.emitting n []⟩ : Worker σ) :: r2) from
        countP_mid_congr _ _ _ _ _ (by simp [isPushing]), ← hr]
    exact hpush
  | finish r1 r2 d0 hr =>
    refine ⟨hdone, hfull, ?_, had⟩
    dsimp only
    have he : countPushing d (r1 ++ (⟨d0, Phase.finishing⟩ : Worker σ) :: r2)
        = countPushing d (r1 ++ r2) :=
      countP_mid_false _ _ _ _ (by simp [isPushing])
    rw [hr, he] at hpush
    exact hpush
  | announce had0 hb0 =>
    refine ⟨hdone, hfull, hpush, ?_⟩
    dsimp only
    by_cases had2 : c.announceDepth = d
    · exfalso
      have hb := hinv.barrier_eq d
      have hle := countPushing_le_countR d c.running
      rw [had2] at hb0
      omega
    · omega
  | close had0 hcl => exact ⟨hdone, hfull, hpush, had⟩
  | recv x rest hres hdone0 =>
    rw [hdone] at hdone0
    exact Bool.noConfusion hdone0
  | recvClose hres hcl hdone0 =>
    rw [hdone] at hdone0
    exact Bool.noConfusion hdone0

end PSLemmas



namespace MHLemmas

open MH

/-- The code's `isInvalid` test coincides with the claim's wording of it. -/
theorem invalidAt_iff (scn : Scenario) (r : Resources) (n : Nat) :
    invalidAt scn r n = true ↔ claimInvalid scn r n := by
  unfold invalidAt claimInvalid Resources.endsWithin
  by_cases hcnd : (n % scn.ActionsPerTurn == 0
      && !(Resources.endsWithin r scn.TurnMustEndAbove scn.TurnMustEndBelow)) = true
  · rw [if_pos (by exact hcnd)]
    simp only [Bool.and_eq_true, beq_iff_eq, Bool.not_eq_true',
      Resources.endsWithin, decide_eq_false_iff_not] at hcnd
    constructor
    · intro _
      exact Or.inr (Or.inr (Or.inr (Or.inr (Or.inr (Or.inr ⟨hcnd.1, hcnd.2⟩)))))
    · intro _
      rfl
  · rw [if_neg (by exact hcnd)]
    simp only [Bool.and_eq_true, beq_iff_eq, Bool.not_eq_true',
      Resources.endsWithin, decide_eq_false_iff_not, not_and] at hcnd
    simp only [decide_eq_true_eq]
    constructor
    · intro h
      tauto
    · intro h
      rcases h with h | h | h | h | h | h | ⟨h1, h2⟩
      · tauto
      · tauto
      · tauto
      · tauto
      · tauto
      · tauto
      · exact absurd (hcnd h1) (by tauto)

theorem attemptActionH_heap (heap : List Resources) (self : HSequence)
    (command : Command) :
    ∃ v, (attemptActionH heap self command).2 = heap ++ [v] := by
  unfold attemptActionH
  dsimp only
  split_ifs with h1 h2
  · exact ⟨_, rfl⟩
  · exact ⟨_, rfl⟩
  · exact ⟨_, rfl⟩

theorem attemptActionH_child (heap : List Resources) (self : HSequence)
    (command : Command) (c : HSequence)
    (h : (attemptActionH heap self command).1 = some c) :
    c.res = heap.length ∧ c.scenario = self.scenario ∧ c.size = (self.size + 1) % U32 := by
  unfold attemptActionH at h
  dsimp only at h
  split_ifs at h with h1 h2
  have h' : some (⟨self.scenario, heap.length, (self.size + 1) % U32⟩ : HSequence)
      = some c := h
  obtain rfl := Option.some.inj h'
  exact ⟨rfl, rfl, rfl⟩

theorem getD_append_lt (l : List Resources) (ext : List Resources) (i : Nat)
    (h : i < l.length) : (l ++ ext).getD i default = l.getD i default := by
  rw [List.getD_append _ _ _ _ h]

/-- Fold invariant for `searchH`: the heap only grows, every collected child
points into the freshly grown region, and child cells are pairwise distinct. -/
theorem searchH_fold (self : HSequence) :
    ∀ (cmds : List Command) (cs0 : List HSequence) (h0 : List Resources),
    (∀ c ∈ cs0, c.res < h0.length) →
    List.Pairwise (fun a b => a.res < b.res) cs0 →
    (∃ ext, (cmds.foldl (searchStep self) (cs0, h0)).2 = h0 ++ ext) ∧
    (∀ c ∈ (cmds.foldl (searchStep self) (cs0, h0)).1, c ∈ cs0 ∨ h0.length ≤ c.res) ∧
    (∀ c ∈ (cmds.foldl (searchStep self) (cs0, h0)).1,
      c.res < (cmds.foldl (searchStep self) (cs0, h0)).2.length) ∧
    List.Pairwise (fun a b => a.res < b.res) (cmds.foldl (searchStep self) (cs0, h0)).1 := by
  intro cmds
  induction cmds with
  | nil =>
    intro cs0 h0 hbound hpair
    exact ⟨⟨[], by simp⟩, fun c hc => Or.inl hc, hbound, hpair⟩
  | cons cmd cmds ih =>
    intro cs0 h0 hbound hpair
    simp only [List.foldl_cons]
    obtain ⟨v, hv⟩ := attemptActionH_heap h0 self cmd
    have hlen : (attemptActionH h0 self cmd).2.length = h0.length + 1 := by
      rw [hv]
      simp
    rcases hop : (attemptActionH h0 self cmd).1 with _ | child
    · have hstep : searchStep self (cs0, h0) cmd = (cs0, (attemptActionH h0 self cmd).2) := by
        simp only [searchStep, hop]
        rfl
      rw [hstep]
      obtain ⟨hext, hmem, hlt, hp⟩ := ih cs0 (attemptActionH h0 self cmd).2
        (fun c hc => by
          have := hbound c hc
          omega)
        hpair
      refine ⟨?_, ?_, hlt, hp⟩
      · obtain ⟨ext, he⟩ := hext
        exact ⟨v :: ext, by rw [he, hv]; simp⟩
      · intro c hc
        rcases hmem c hc with h | h
        · exact Or.inl h
        · exact Or.inr (by omega)
    · obtain ⟨hres, _, _⟩ := attemptActionH_child h0 self cmd child hop
      have hstep : searchStep self (cs0, h0) cmd
          = (cs0 ++ [child], (attemptActionH h0 self cmd).2) := by
        simp only [searchStep, hop]
        rfl
      rw [hstep]
      obtain ⟨hext, hmem, hlt, hp⟩ := ih (cs0 ++ [child]) (attemptActionH h0 self cmd).2
        (fun c hc => by
          rcases List.mem_append.mp hc with h | h
          · have := hbound c h
            omega
          · have : c = child := by simpa using h
            subst this
            omega)
        (by
          rw [List.pairwise_append]
          refine ⟨hpair, by simp, ?_⟩
          intro a ha b hb
          have hbb : b = child := by simpa using hb
          subst hbb
          have := hbound a ha
          omega)
      refine ⟨?_, ?_, hlt, hp⟩
      · obtain ⟨ext, he⟩ := hext
        exact ⟨v :: ext, by rw [he, hv]; simp⟩
      · intro c hc
        rcases hmem c hc with h | h
        · rcases List.mem_append.mp h with h' | h'
          · exact Or.inl h'
          · have : c = child := by simpa using h'
            subst this
            exact Or.inr (by omega)
        · exact Or.inr (by omega)

end MHLemmas

namespace Claims

open PS MH EX

/-- The stuck state `cfgStuck` is reachable: process the root, emit its three
goal children, push the first, deliver it to the caller (meeting the quota),
push the second into the now-undrained buffer, and start the third, which
blocks on its push. -/
theorem reachStuck :
    Relation.ReflTransGen (Step sp0 1 1 4) (init 1 [0]) cfgStuck := by
  have h0 : Relation.ReflTransGen (Step sp0 1 1 4) (init 1 [0]) (init 1 [0]) :=
    Relation.ReflTransGen.refl
  have h1 := h0.tail (Step.start _ [] [] 0 0 rfl (by decide))
  have h2 := h1.tail (Step.emit _ [] [] 0 0 1 [2, 3] rfl)
  have h3 := h2.tail (Step.emit _ [] [] 0 0 2 [3] rfl)
  have h4 := h3.tail (Step.emit _ [] [] 0 0 3 [] rfl)
  have h5 := h4.tail (Step.emitDone _ [] [] 0 0 rfl)
  have h6 := h5.tail (Step.finish _ [] [] 0 rfl)
  have h7 := h6.tail (Step.start _ [] [(2, 1), (3, 1)] 1 1 rfl (by decide))
  have h8 := h7.tail (Step.push _ [] [] 1 1 rfl (by decide))
  have h9 := h8.tail (Step.finish _ [] [] 1 rfl)
  have h10 := h9.tail (Step.recv _ 1 [] rfl rfl)
  have h11 := h10.tail (Step.start _ [] [(3, 1)] 2 1 rfl (by decide))
  have h12 := h11.tail (Step.push _ [] [] 1 2 rfl (by decide))
  have h13 := h12.tail (Step.finish _ [] [] 1 rfl)
  exact h13.tail (Step.start _ [] [] 3 1 rfl (by decide))

/-- The pruned final state `cfg7` of the `depthLimit = 0` run is reachable. -/
theorem reach7 :
    Relation.ReflTransGen (Step sp0 0 1 4) (init 0 [0]) cfg7 := by
  have h0 : Relation.ReflTransGen (Step sp0 0 1 4) (init 0 [0]) (init 0 [0]) :=
    Relation.ReflTransGen.refl
  have h1 := h0.tail (Step.start _ [] [] 0 0 rfl (by decide))
  exact h1.tail (Step.finish _ [] [] 0 rfl)

/-- C1: whenever the `WaitForFound` drain loop has exited in a reachable state
(with positive `searchLimit`), the returned sequence holds at most
`min searchLimit (number of goal nodes at depth ≤ depthLimit)` entries, every
returned entry satisfies `IsFound`, and the loop exited only because it
received `searchLimit` entries or the queue was closed. -/
theorem claim_c1 {σ : Type} (sp : SearchSpec σ) (dl sl ps : Nat) (roots : List σ)
    (c : Config σ) (hsl : 1 ≤ sl) (h : Reachable sp dl sl ps roots c)
    (hdone : c.callerDone = true) :
    (waitForFoundResult sp c).length ≤ min sl (totalGoals sp dl roots) ∧
    (∀ x ∈ waitForFoundResult sp c, sp.isFound x = true) ∧
    (sl ≤ c.delivered.length ∨ c.closed = true) := by
  have hinv := PSLemmas.reachable_inv sp dl sl ps roots h
  have hd := PSLemmas.reachable_dinv sp dl sl ps roots hsl h
  have hlen : (waitForFoundResult sp c).length = c.delivered.length :=
    PSLemmas.sortDesc_length _ _
  refine ⟨?_, ?_, hd.done_reason hdone⟩
  · have h1 : c.delivered.length ≤ sl := hd.delivered_le
    have h2 : c.delivered.length ≤ totalGoals sp dl roots := by
      have hp := hinv.potential_eq
      unfold potential at hp
      omega
    omega
  · intro x hx
    exact hinv.delivered_found x ((PSLemmas.sortDesc_mem _ _ x).mp hx)

/-- C2: the sequence returned by `WaitForFound` is sorted descending by score —
each adjacent pair has the earlier entry's score at least the later entry's —
and is a permutation of the drained entries. -/
theorem claim_c2 {σ : Type} (sp : SearchSpec σ) (dl sl ps : Nat) (roots : List σ)
    (c : Config σ) (hsl : 1 ≤ sl) (h : Reachable sp dl sl ps roots c)
    (hdone : c.callerDone = true) :
    List.Chain' (fun a b => sp.score b ≤ sp.score a) (waitForFoundResult sp c) ∧
    (waitForFoundResult sp c).Perm c.delivered :=
  ⟨(PSLemmas.sortDesc_sorted sp.score c.delivered).chain',
    PSLemmas.sortDesc_perm _ _⟩

/-- C3: in every reachable state, the processing case split is respected: a
worker blocked pushing holds a node with `IsFound` true, a worker emitting
children holds a non-goal node at depth `< depthLimit` whose pending children
are a suffix of its `Search` emissions, and every queued or processed node
sits at depth `≤ depthLimit` — so no node at depth `depthLimit` ever has
children submitted. -/
theorem claim_c3 {σ : Type} (sp : SearchSpec σ) (dl sl ps : Nat) (roots : List σ)
    (c : Config σ) (h : Reachable sp dl sl ps roots c) :
    (∀ w ∈ c.running, ∀ n, w.phase = Phase.pushing n → sp.isFound n = true) ∧
    (∀ w ∈ c.running, ∀ n cs, w.phase = Phase.emitting n cs →
      sp.isFound n = false ∧ w.depth < dl ∧ ∃ pre, sp.children n = pre ++ cs) ∧
    (∀ t ∈ c.queue, t.2 ≤ dl) ∧ (∀ t ∈ c.log, t.2 ≤ dl) := by
  have hinv := PSLemmas.reachable_inv sp dl sl ps roots h
  exact ⟨hinv.pushing_found, hinv.emitting_ok, hinv.queue_depth, hinv.log_depth⟩

/-- C4: in every reachable state, each depth's barrier equals the number of
submitted-but-unfinished nodes at that depth (queued plus in-flight), so a
zero barrier at depth `d` means no queued task and no in-flight worker —
in particular no unsubmitted children — remains at depth `d`. -/
theorem claim_c4 {σ : Type} (sp : SearchSpec σ) (dl sl ps : Nat) (roots : List σ)
    (c : Config σ) (h : Reachable sp dl sl ps roots c) :
    (∀ d, c.barrier.getD d 0 = countQ d c.queue + countR d c.running) ∧
    (∀ d, c.barrier.getD d 0 = 0 →
      (∀ t ∈ c.queue, t.2 ≠ d) ∧ (∀ w ∈ c.running, w.depth ≠ d)) := by
  have hinv := PSLemmas.reachable_inv sp dl sl ps roots h
  refine ⟨hinv.barrier_eq, ?_⟩
  intro d hd
  have hb := hinv.barrier_eq d
  constructor
  · intro t ht he
    have h1 : 1 ≤ c.queue.countP (fun t => t.2 == d) :=
      PSLemmas.countP_pos_of_mem ht (by simp [he])
    have h2 : 1 ≤ countQ d c.queue := h1
    omega
  · intro w hw he
    have h1 : 1 ≤ c.running.countP (fun w => w.depth == d) :=
      PSLemmas.countP_pos_of_mem hw (by simp [he])
    have h2 : 1 ≤ countR d c.running := h1
    omega

/-- C5: in every reachable state, the channel is closed only after the
announcer has passed every depth `0..depthLimit` in order (each with a zero
barrier), each completion report carries the positive processed count of its
depth, a caller that finished with fewer than `searchLimit` entries saw the
closed channel, and closure is irrevocable (so with the `closed = false` guard
on the close transition it happens at most once per run). -/
theorem claim_c5 {σ : Type} (sp : SearchSpec σ) (dl sl ps : Nat) (roots : List σ)
    (c : Config σ) (hsl : 1 ≤ sl) (h : Reachable sp dl sl ps roots c) :
    (c.closed = true →
      c.announceDepth = dl + 1 ∧ ∀ k, k ≤ dl → c.barrier.getD k 0 = 0) ∧
    (∀ p ∈ c.reported, 0 < p.2 ∧ p.2 = c.searched.getD p.1 0) ∧
    (c.callerDone = true → c.delivered.length < sl → c.closed = true) ∧
    (∀ c', Step sp dl sl ps c c' → c.closed = true → c'.closed = true) := by
  have hinv := PSLemmas.reachable_inv sp dl sl ps roots h
  have hd := PSLemmas.reachable_dinv sp dl sl ps roots hsl h
  refine ⟨?_, ?_, ?_, ?_⟩
  · intro hcl
    have had := hinv.closed_ad hcl
    exact ⟨had, fun k hk => hinv.quiescent k (by omega)⟩
  · intro p hp
    obtain ⟨g1, g2, _⟩ := hinv.reported_ok p hp
    exact ⟨g1, g2⟩
  · intro hdone hlt
    rcases hd.done_reason hdone with h1 | h1
    · omega
    · exact h1
  · intro c' hstep hcl
    cases hstep <;> first | exact hcl | rfl

/-- C6: in every reachable state, each depth's processed counter equals the
number of processed (counted) nodes at that depth, and the counters summed
over all depths `0..depthLimit` equal the total number of nodes processed —
no lost or double counts under any interleaving. -/
theorem claim_c6 {σ : Type} (sp : SearchSpec σ) (dl sl ps : Nat) (roots : List σ)
    (c : Config σ) (h : Reachable sp dl sl ps roots c) :
    (∀ d, c.searched.getD d 0 = countQ d c.log) ∧
    (∑ d ∈ Finset.range (dl + 1), c.searched.getD d 0 = c.log.length) := by
  have hinv := PSLemmas.reachable_inv sp dl sl ps roots h
  refine ⟨hinv.searched_eq, ?_⟩
  have he : ∀ d ∈ Finset.range (dl + 1), c.searched.getD d 0 = countQ d c.log :=
    fun d _ => hinv.searched_eq d
  rw [Finset.sum_congr rfl he]
  exact PSLemmas.sum_countQ (dl + 1) c.log
    (fun t ht => by have := hinv.log_depth t ht; omega)

/-- C7: `Start` submits every given root at depth `0`, and when
`depthLimit = 0` every reachable state contains only root nodes at depth `0`
(queued or processed), every worker runs at depth `0`, and no worker is ever
expanding — no submission at any depth greater than `0` occurs. -/
theorem claim_c7 {σ : Type} (sp : SearchSpec σ) (sl ps : Nat) (roots : List σ)
    (c : Config σ) (h : Reachable sp 0 sl ps roots c) :
    ((init 0 roots).queue = roots.map (fun n => (n, 0))) ∧
    (∀ t ∈ c.queue, t.1 ∈ roots ∧ t.2 = 0) ∧
    (∀ t ∈ c.log, t.1 ∈ roots ∧ t.2 = 0) ∧
    (∀ w ∈ c.running, w.depth = 0) ∧
    (∀ w ∈ c.running, ∀ n cs, ¬w.phase = Phase.emitting n cs) := by
  have hinv := PSLemmas.reachable_inv sp 0 sl ps roots h
  have h0 := PSLemmas.reachable_inv0 sp sl ps roots h
  refine ⟨rfl, h0.queue_root, h0.log_root, h0.running_zero, ?_⟩
  intro w hw n cs hph
  exact absurd (hinv.emitting_ok w hw n cs hph).2.1 (by omega)

/-- C8: from any reachable state in which the caller has stopped draining with
its quota, the channel buffer holds `searchLimit` entries, and some worker at
depth `d` is blocked pushing a further goal node, every subsequently reachable
state still has that blocked worker, a positive depth-`d` barrier, an
announcer stuck at or below depth `d`, and an unclosed channel — the
completion announcement for depth `d` and all deeper depths stalls
permanently. -/
theorem claim_c8 {σ : Type} (sp : SearchSpec σ) (dl sl ps : Nat) (roots : List σ)
    (c : Config σ) (d : Nat) (hsl : 1 ≤ sl) (h : Reachable sp dl sl ps roots c)
    (hdone : c.callerDone = true) (hfull : c.results.length = sl)
    (hpush : 1 ≤ countPushing d c.running) :
    ∀ c', Relation.ReflTransGen (Step sp dl sl ps) c c' →
      1 ≤ countPushing d c'.running ∧ 1 ≤ c'.barrier.getD d 0 ∧
      c'.closed = false ∧ c'.announceDepth ≤ d := by
  have hinv := PSLemmas.reachable_inv sp dl sl ps roots h
  have had : c.announceDepth ≤ d := by
    by_contra hlt
    push_neg at hlt
    have h0 := hinv.quiescent d hlt
    have hb := hinv.barrier_eq d
    have hle := PSLemmas.countPushing_le_countR d c.running
    omega
  intro c' hrt
  have key : Reachable sp dl sl ps roots c' ∧ StuckAt sl d c' := by
    induction hrt with
    | refl => exact ⟨h, hdone, hfull, hpush, had⟩
    | tail h1 h2 ih =>
      obtain ⟨hr, hsk⟩ := ih
      exact ⟨hr.tail h2,
        PSLemmas.stuck_step sp dl sl ps d roots h2
          (PSLemmas.reachable_inv sp dl sl ps roots hr) hsk⟩
  obtain ⟨hr', hsk'⟩ := key
  have hinv' := PSLemmas.reachable_inv sp dl sl ps roots hr'
  obtain ⟨hdone', hfull', hpush', had'⟩ := hsk'
  have hbar : 1 ≤ c'.barrier.getD d 0 := by
    have hb := hinv'.barrier_eq d
    have hle := PSLemmas.countPushing_le_countR d c'.running
    omega
  have hdl : d ≤ dl := by
    obtain ⟨w, hw, hwd, _⟩ := PSLemmas.countPushing_elim hpush'
    have := hinv'.running_depth w hw
    omega
  have hclosed : c'.closed = false := by
    cases hcl : c'.closed
    · rfl
    · exact absurd (hinv'.closed_ad hcl) (by omega)
  exact ⟨hpush', hbar, hclosed, had'⟩

/-- C9: a node is never mutated after creation — `attemptAction` allocates one
fresh resources cell and leaves every existing heap cell (in particular the
receiving sequence's) unchanged, the returned child points at the fresh cell;
`Search` likewise only appends to the heap, leaves the parent's cell
untouched, and every emitted child carries its own fresh cell, distinct from
the parent's and pairwise distinct from its siblings'. -/
theorem claim_c9 (heap : List Resources) (self : HSequence) (command : Command)
    (hself : self.res < heap.length) :
    (∃ v, (attemptActionH heap self command).2 = heap ++ [v]) ∧
    ((attemptActionH heap self command).2.getD self.res default
      = heap.getD self.res default) ∧
    (∀ child, (attemptActionH heap self command).1 = some child →
      child.res = heap.length ∧ child.res ≠ self.res) ∧
    (∃ ext, (searchH heap self).2 = heap ++ ext) ∧
    ((searchH heap self).2.getD self.res default = heap.getD self.res default) ∧
    (∀ child ∈ (searchH heap self).1, heap.length ≤ child.res ∧ child.res ≠ self.res) ∧
    List.Pairwise (fun a b => a.res ≠ b.res) (searchH heap self).1 := by
  obtain ⟨v, hv⟩ := MHLemmas.attemptActionH_heap heap self command
  obtain ⟨⟨ext, hext⟩, hmem, hlt, hp⟩ :=
    MHLemmas.searchH_fold self self.scenario.Commands [] heap
      (by intro x hx; simp at hx) (by simp)
  by_cases hmore : self.size < self.scenario.totalActions
  · have hs : searchH heap self
        = self.scenario.Commands.foldl (searchStep self) ([], heap) := by
      simp [searchH, hmore]
    refine ⟨⟨v, hv⟩, ?_, ?_, ?_, ?_, ?_, ?_⟩
    · rw [hv]
      exact MHLemmas.getD_append_lt heap [v] self.res hself
    · intro child hchild
      obtain ⟨h1, _, _⟩ := MHLemmas.attemptActionH_child heap self command child hchild
      exact ⟨h1, by omega⟩
    · rw [hs]
      exact ⟨ext, hext⟩
    · rw [hs, hext]
      exact MHLemmas.getD_append_lt heap ext self.res hself
    · intro child hchild
      rw [hs] at hchild
      rcases hmem child hchild with h1 | h1
      · simp at h1
      · exact ⟨h1, by omega⟩
    · rw [hs]
      exact hp.imp (fun hab => by omega)
  · have hs : searchH heap self = ([], heap) := by
      simp [searchH, hmore]
    refine ⟨⟨v, hv⟩, ?_, ?_, ?_, ?_, ?_, ?_⟩
    · rw [hv]
      exact MHLemmas.getD_append_lt heap [v] self.res hself
    · intro child hchild
      obtain ⟨h1, _, _⟩ := MHLemmas.attemptActionH_child heap self command child hchild
      exact ⟨h1, by omega⟩
    · rw [hs]
      exact ⟨[], by simp⟩
    · rw [hs]
    · intro child hchild
      rw [hs] at hchild
      simp at hchild
    · rw [hs]
      exact List.Pairwise.nil

/-- C10: `attemptAction` returns `none` exactly when the candidate successor
state is invalid — as the claim words invalidity — at one of the two
checkpoints: after applying the new-turn adjustments and subtracting the
command's input, or after additionally adding the command's output; otherwise
it returns the extended sequence, whose size is the parent's size plus one
(as a `uint32`). -/
theorem claim_c10 (self : Sequence) (command : Command)
    (hAPT : 0 < self.scenario.ActionsPerTurn) :
    (self.attemptAction command = none ↔
      (claimInvalid self.scenario
        ((newTurnAdjust self.scenario self.resources ((self.size + 1) % U32)).subtract
          command.Input) ((self.size + 1) % U32) ∨
       claimInvalid self.scenario
        (((newTurnAdjust self.scenario self.resources ((self.size + 1) % U32)).subtract
          command.Input).add command.Output) ((self.size + 1) % U32))) ∧
    (∀ out, self.attemptAction command = some out →
      out = Sequence.mk self.scenario
        (((newTurnAdjust self.scenario self.resources ((self.size + 1) % U32)).subtract
          command.Input).add command.Output)
        (some command) (some self) ((self.size + 1) % U32)) ∧
    (self.size + 1 < U32 → ∀ out, self.attemptAction command = some out →
      out.size = self.size + 1) := by
  refine ⟨⟨?_, ?_⟩, ?_, ?_⟩
  · intro h
    unfold Sequence.attemptAction at h
    dsimp only at h
    split_ifs at h with h1 h2
    · exact Or.inl ((MHLemmas.invalidAt_iff _ _ _).mp h1)
    · exact Or.inr ((MHLemmas.invalidAt_iff _ _ _).mp h2)
  · intro h
    unfold Sequence.attemptAction
    dsimp only
    split_ifs with h1 h2
    · rfl
    · rfl
    · exfalso
      rcases h with h | h
      · exact h1 ((MHLemmas.invalidAt_iff _ _ _).mpr h)
      · exact h2 ((MHLemmas.invalidAt_iff _ _ _).mpr h)
  · intro out hout
    unfold Sequence.attemptAction at hout
    dsimp only at hout
    split_ifs at hout with h1 h2
    have h' : some (Sequence.mk self.scenario
        (((newTurnAdjust self.scenario self.resources ((self.size + 1) % U32)).subtract
          command.Input).add command.Output)
        (some command) (some self) ((self.size + 1) % U32)) = some out := hout
    exact (Option.some.inj h').symm
  · intro hlt out hout
    unfold Sequence.attemptAction at hout
    dsimp only at hout
    split_ifs at hout with h1 h2
    have h' : some (Sequence.mk self.scenario
        (((newTurnAdjust self.scenario self.resources ((self.size + 1) % U32)).subtract
          command.Input).add command.Output)
        (some command) (some self) ((self.size + 1) % U32)) = some out := hout
    have he := (Option.some.inj h').symm
    subst he
    show (self.size + 1) % U32 = self.size + 1
    exact Nat.mod_eq_of_lt hlt

/-- Witness for C1 on the concrete stuck run. -/
theorem claim_c1_witness :
    (1 ≤ 1) ∧ cfgStuck.callerDone = true ∧
    ((waitForFoundResult sp0 cfgStuck).length ≤ min 1 (totalGoals sp0 1 [0]) ∧
      (∀ x ∈ waitForFoundResult sp0 cfgStuck, sp0.isFound x = true) ∧
      (1 ≤ cfgStuck.delivered.length ∨ cfgStuck.closed = true)) :=
  ⟨le_refl 1, rfl, claim_c1 sp0 1 1 4 [0] cfgStuck (le_refl 1) reachStuck rfl⟩

/-- Witness for C2 on the concrete stuck run. -/
theorem claim_c2_witness :
    (1 ≤ 1) ∧ cfgStuck.callerDone = true ∧
    (List.Chain' (fun a b => sp0.score b ≤ sp0.score a) (waitForFoundResult sp0 cfgStuck) ∧
      (waitForFoundResult sp0 cfgStuck).Perm cfgStuck.delivered) :=
  ⟨le_refl 1, rfl, claim_c2 sp0 1 1 4 [0] cfgStuck (le_refl 1) reachStuck rfl⟩

/-- Witness for C3 on the concrete stuck run. -/
theorem claim_c3_witness :
    (∀ w ∈ cfgStuck.running, ∀ n, w.phase = Phase.pushing n → sp0.isFound n = true) ∧
    (∀ w ∈ cfgStuck.running, ∀ n cs, w.phase = Phase.emitting n cs →
      sp0.isFound n = false ∧ w.depth < 1 ∧ ∃ pre, sp0.children n = pre ++ cs) ∧
    (∀ t ∈ cfgStuck.queue, t.2 ≤ 1) ∧ (∀ t ∈ cfgStuck.log, t.2 ≤ 1) :=
  claim_c3 sp0 1 1 4 [0] cfgStuck reachStuck

/-- Witness for C4 on the concrete stuck run. -/
theorem claim_c4_witness :
    (∀ d, cfgStuck.barrier.getD d 0 = countQ d cfgStuck.queue + countR d cfgStuck.running) ∧
    (∀ d, cfgStuck.barrier.getD d 0 = 0 →
      (∀ t ∈ cfgStuck.queue, t.2 ≠ d) ∧ (∀ w ∈ cfgStuck.running, w.depth ≠ d)) :=
  claim_c4 sp0 1 1 4 [0] cfgStuck reachStuck

/-- Witness for C5 on the concrete stuck run. -/
theorem claim_c5_witness :
    (1 ≤ 1) ∧
    ((cfgStuck.closed = true →
        cfgStuck.announceDepth = 1 + 1 ∧ ∀ k, k ≤ 1 → cfgStuck.barrier.getD k 0 = 0) ∧
      (∀ p ∈ cfgStuck.reported, 0 < p.2 ∧ p.2 = cfgStuck.searched.getD p.1 0) ∧
      (cfgStuck.callerDone = true → cfgStuck.delivered.length < 1 →
        cfgStuck.closed = true) ∧
      (∀ c', Step sp0 1 1 4 cfgStuck c' → cfgStuck.closed = true → c'.closed = true)) :=
  ⟨le_refl 1, claim_c5 sp0 1 1 4 [0] cfgStuck (le_refl 1) reachStuck⟩

/-- Witness for C6 on the concrete stuck run. -/
theorem claim_c6_witness :
    (∀ d, cfgStuck.searched.getD d 0 = countQ d cfgStuck.log) ∧
    (∑ d ∈ Finset.range (1 + 1), cfgStuck.searched.getD d 0 = cfgStuck.log.length) :=
  claim_c6 sp0 1 1 4 [0] cfgStuck reachStuck

/-- Witness for C7 on the concrete `depthLimit = 0` run. -/
theorem claim_c7_witness :
    ((init 0 [0]).queue = [0].map (fun n => (n, 0))) ∧
    (∀ t ∈ cfg7.queue, t.1 ∈ [0] ∧ t.2 = 0) ∧
    (∀ t ∈ cfg7.log, t.1 ∈ [0] ∧ t.2 = 0) ∧
    (∀ w ∈ cfg7.running, w.depth = 0) ∧
    (∀ w ∈ cfg7.running, ∀ n cs, ¬w.phase = Phase.emitting n cs) :=
  claim_c7 sp0 1 4 [0] cfg7 reach7

/-- Witness for C8 on the concrete stuck run, evaluated at the stuck state
itself. -/
theorem claim_c8_witness :
    (1 ≤ 1) ∧ cfgStuck.callerDone = true ∧ cfgStuck.results.length = 1 ∧
    1 ≤ countPushing 1 cfgStuck.running ∧
    (1 ≤ countPushing 1 cfgStuck.running ∧ 1 ≤ cfgStuck.barrier.getD 1 0 ∧
      cfgStuck.closed = false ∧ cfgStuck.announceDepth ≤ 1) :=
  ⟨le_refl 1, rfl, rfl, by decide,
    claim_c8 sp0 1 1 4 [0] cfgStuck 1 (le_refl 1) reachStuck rfl rfl (by decide)
      cfgStuck Relation.ReflTransGen.refl⟩

/-- Witness for C9 on a concrete one-cell heap and scenario. -/
theorem claim_c9_witness :
    exHSeq.res < exHeap.length ∧
    ((∃ v, (attemptActionH exHeap exHSeq exCommand).2 = exHeap ++ [v]) ∧
      ((attemptActionH exHeap exHSeq exCommand).2.getD exHSeq.res default
        = exHeap.getD exHSeq.res default) ∧
      (∀ child, (attemptActionH exHeap exHSeq exCommand).1 = some child →
        child.res = exHeap.length ∧ child.res ≠ exHSeq.res) ∧
      (∃ ext, (searchH exHeap exHSeq).2 = exHeap ++ ext) ∧
      ((searchH exHeap exHSeq).2.getD exHSeq.res default
        = exHeap.getD exHSeq.res default) ∧
      (∀ child ∈ (searchH exHeap exHSeq).1,
        exHeap.length ≤ child.res ∧ child.res ≠ exHSeq.res) ∧
      List.Pairwise (fun a b => a.res ≠ b.res) (searchH exHeap exHSeq).1) :=
  ⟨by decide, claim_c9 exHeap exHSeq exCommand (by decide)⟩

/-- Witness for C10 on a concrete sequence and command. -/
theorem claim_c10_witness :
    0 < exSeq.scenario.ActionsPerTurn ∧
    ((exSeq.attemptAction exCommand = none ↔
        (claimInvalid exSeq.scenario
          ((newTurnAdjust exSeq.scenario exSeq.resources ((exSeq.size + 1) % U32)).subtract
            exCommand.Input) ((exSeq.size + 1) % U32) ∨
         claimInvalid exSeq.scenario
          (((newTurnAdjust exSeq.scenario exSeq.resources ((exSeq.size + 1) % U32)).subtract
            exCommand.Input).add exCommand.Output) ((exSeq.size + 1) % U32))) ∧
      (∀ out, exSeq.attemptAction exCommand = some out →
        out = Sequence.mk exSeq.scenario
          (((newTurnAdjust exSeq.scenario exSeq.resources ((exSeq.size + 1) % U32)).subtract
            exCommand.Input).add exCommand.Output)
          (some exCommand) (some exSeq) ((exSeq.size + 1) % U32)) ∧
      (exSeq.size + 1 < U32 → ∀ out, exSeq.attemptAction exCommand = some out →
        out.size = exSeq.size + 1)) :=
  ⟨by decide, claim_c10 exSeq exCommand (by decide)⟩

end Claims
